import Mathlib

/-!
Verification development for the CourseLLM repository.

Part A models the File Normalization Service job pipeline (Job Manager,
Scheduler, Job Record Store, Journal API).  The pipeline's Python sources
(`jobs.py`, `models.py`, `app.py`, `storage.py`) are not part of the
source tree here; only their developer guide and the design document
describe them, so those definitions are modelled from the spec and are
marked as such.

Part B embeds the TypeScript code that is present in the sources:
the Next.js proxy route `src/app/api/material-to-md/convert/route.ts`,
the client `src/lib/materialToMdApi.ts`, the `cleanMarkdown` formatter of
the Material-to-Markdown page, and `handleUpload` of
`materialToMD/frontend/app/layout.tsx`.
-/

namespace FNS

/-- Modelled from the spec: Job statuses `queued | processing | completed |
failed` (`models.py` is not in the sources). -/
inductive JobStatus
  | queued
  | processing
  | completed
  | failed
deriving DecidableEq, Repr, BEq

/-- Modelled from the spec: the Job entity of the Job Record Store
(`models.py` is not in the sources).  Timestamps are logical clock values. -/
structure Job where
  id : Nat
  source_path : String
  status : JobStatus
  attempts : Nat
  processed_path : Option String
  error_message : Option String
  created_at : Nat
  updated_at : Nat
  is_deleted : Bool
deriving DecidableEq, Repr

/-- Modelled from the spec: the retry/backoff configuration surface
(`settings.py` is not in the sources).  Delays are rationals. -/
structure Config where
  max_retries : Nat
  backoff_factor : Rat
  initial_delay : Rat
deriving DecidableEq, Repr

/-- Modelled from the spec: the shared mutable state of the pipeline
(`jobs.py` is not in the sources): the Job Record Store, the dispatch
queue of job ids, the delayed re-enqueue work items (id, delay), the set
of outputs present in the processed area, the id generator and a logical
clock. -/
structure PState where
  jobs : List Job
  queue : List Nat
  delayed : List (Nat × Rat)
  processedFiles : List String
  nextId : Nat
  clock : Nat
deriving DecidableEq, Repr

def initState : PState :=
  { jobs := [], queue := [], delayed := [], processedFiles := [],
    nextId := 0, clock := 0 }

/-- A Job is active when it is `queued` or `processing`. -/
def isActive (j : Job) : Bool :=
  j.status == JobStatus.queued || j.status == JobStatus.processing

/-- Modelled from the spec: error taxonomy entry raised by `enqueue`. -/
inductive EnqueueError
  | DuplicateSourceError
deriving DecidableEq, Repr

/-- Is there an active Job referencing source path `p`? -/
def hasActiveSource (jobs : List Job) (p : String) : Bool :=
  jobs.any (fun j => j.source_path == p && isActive j)

/-- A freshly created Job record. -/
def mkJob (i : Nat) (p : String) (t : Nat) : Job :=
  { id := i, source_path := p, status := JobStatus.queued, attempts := 0,
    processed_path := none, error_message := none,
    created_at := t, updated_at := t, is_deleted := false }

/-- Modelled from the spec: `enqueue(source_path)` of the Job Manager
(`jobs.py` is not in the sources).  Fails with `DuplicateSourceError` iff
an active Job already references the source; otherwise creates a Job in
`queued`, persists it and places it on the dispatch queue. -/
def enqueue (st : PState) (p : String) : Except EnqueueError (Job × PState) :=
  if hasActiveSource st.jobs p then
    Except.error EnqueueError.DuplicateSourceError
  else
    let j := mkJob st.nextId p st.clock
    Except.ok (j, { st with
      jobs := j :: st.jobs,
      queue := st.queue ++ [j.id],
      nextId := st.nextId + 1,
      clock := st.clock + 1 })

def findJob (jobs : List Job) (i : Nat) : Option Job :=
  jobs.find? (fun j => j.id == i)

def updateJob (jobs : List Job) (i : Nat) (f : Job → Job) : List Job :=
  jobs.map (fun j => if j.id == i then f j else j)

/-- Modelled from the spec: a worker pulls the next queued Job, transitions
it to `processing` and increments `attempts` (`jobs.py` is not in the
sources). -/
def startJob (st : PState) (i : Nat) : PState :=
  { st with
    jobs := updateJob st.jobs i (fun j =>
      { j with status := JobStatus.processing, attempts := j.attempts + 1,
               updated_at := st.clock }),
    queue := st.queue.tail,
    clock := st.clock + 1 }

/-- Modelled from the spec: on success the worker writes the output to the
processed area, records `processed_path` and transitions the Job to
`completed` (`jobs.py` is not in the sources). -/
def completeJob (st : PState) (i : Nat) (outPath : String) : PState :=
  { st with
    jobs := updateJob st.jobs i (fun j =>
      { j with status := JobStatus.completed, processed_path := some outPath,
               updated_at := st.clock }),
    processedFiles := outPath :: st.processedFiles,
    clock := st.clock + 1 }

/-- The exponential backoff delay before the attempt following the `n`-th
failed one: `initial_delay * backoff_factor ^ (n - 1)`. -/
def backoffDelay (cfg : Config) (n : Nat) : Rat :=
  cfg.initial_delay * cfg.backoff_factor ^ (n - 1)

/-- Modelled from the spec: on failure, if `attempts < max_retries` the Job
is re-queued behind a delayed work item carrying the backoff delay;
otherwise it transitions to the terminal `failed` state with
`error_message` recorded (`jobs.py` is not in the sources). -/
def failJob (cfg : Config) (st : PState) (i : Nat) (msg : String) : PState :=
  match findJob st.jobs i with
  | none => st
  | some j =>
    if j.attempts < cfg.max_retries then
      { st with
        jobs := updateJob st.jobs i (fun k =>
          { k with status := JobStatus.queued, updated_at := st.clock }),
        delayed := (i, backoffDelay cfg j.attempts) :: st.delayed,
        clock := st.clock + 1 }
    else
      { st with
        jobs := updateJob st.jobs i (fun k =>
          { k with status := JobStatus.failed, error_message := some msg,
                   updated_at := st.clock }),
        clock := st.clock + 1 }

/-- Modelled from the spec: when a backoff delay elapses the delayed work
item moves onto the dispatch queue (`jobs.py` is not in the sources). -/
def elapseDelay (st : PState) (i : Nat) : PState :=
  { st with
    delayed := st.delayed.filter (fun d => d.1 != i),
    queue := st.queue ++ [i] }

/-- Modelled from the spec: `is_deleted` soft-delete marker, the only
mechanism for logical removal (`jobs.py` is not in the sources). -/
def softDelete (st : PState) (i : Nat) : PState :=
  { st with
    jobs := updateJob st.jobs i (fun j =>
      { j with is_deleted := true, updated_at := st.clock }),
    clock := st.clock + 1 }

/-- Does a successfully completed Job reference `p` with its processed
output still present? -/
def hasCompletedOutput (st : PState) (p : String) : Bool :=
  st.jobs.any (fun j =>
    j.source_path == p && j.status == JobStatus.completed &&
      (match j.processed_path with
       | some q => st.processedFiles.contains q
       | none => false))

/-- Modelled from the spec: the Scheduler's per-file guard, true when the
file needs a new Job (`jobs.py` is not in the sources). -/
def shouldEnqueue (st : PState) (p : String) : Bool :=
  !hasActiveSource st.jobs p && !hasCompletedOutput st p

/-- Modelled from the spec: the Scheduler's reconciliation scan over the
incoming area; returns the new state and the count of newly enqueued Jobs
(`jobs.py` is not in the sources). -/
def scan (st : PState) : List String → PState × Nat
  | [] => (st, 0)
  | p :: ps =>
    if shouldEnqueue st p then
      match enqueue st p with
      | Except.ok (_, st') =>
        let r := scan st' ps
        (r.1, r.2 + 1)
      | Except.error _ => scan st ps
    else scan st ps

/-- Modelled from the spec: the Journal API `changes_since` over the Job
Record Store: all Jobs (soft-deleted included) with `updated_at > t`,
ordered by `(updated_at, id)`. -/
def jobKeyLe (a b : Job) : Bool :=
  a.updated_at < b.updated_at ||
    (a.updated_at == b.updated_at && a.id ≤ b.id)

def insertJob (j : Job) : List Job → List Job
  | [] => [j]
  | k :: ks => if jobKeyLe j k then j :: k :: ks else k :: insertJob j ks

def sortJobs : List Job → List Job
  | [] => []
  | j :: js => insertJob j (sortJobs js)

def changes_since (jobs : List Job) (t : Nat) : List Job :=
  sortJobs (jobs.filter (fun j => t < j.updated_at))

/-- Modelled from the spec: the operations that may mutate the shared
pipeline state, as a transition relation (`jobs.py` is not in the
sources).  Concurrency is modelled by arbitrary interleavings of these
serialized transitions. -/
inductive Step (cfg : Config) : PState → PState → Prop
  | enqueueStep (st : PState) (p : String) (j : Job) (st' : PState) :
      enqueue st p = Except.ok (j, st') → Step cfg st st'
  | startStep (st : PState) (i : Nat) (j : Job) :
      st.queue.head? = some i → findJob st.jobs i = some j →
      j.status = JobStatus.queued → Step cfg st (startJob st i)
  | completeStep (st : PState) (i : Nat) (j : Job) (out : String) :
      findJob st.jobs i = some j → j.status = JobStatus.processing →
      Step cfg st (completeJob st i out)
  | failStep (st : PState) (i : Nat) (j : Job) (msg : String) :
      findJob st.jobs i = some j → j.status = JobStatus.processing →
      Step cfg st (failJob cfg st i msg)
  | elapseStep (st : PState) (i : Nat) (d : Rat) :
      (i, d) ∈ st.delayed → Step cfg st (elapseDelay st i)
  | deleteStep (st : PState) (i : Nat) :
      Step cfg st (softDelete st i)
  | scanStep (st : PState) (incoming : List String) :
      Step cfg st (scan st incoming).1

/-- States reachable from the initial (empty) state. -/
def Reachable (cfg : Config) (st : PState) : Prop :=
  Relation.ReflTransGen (Step cfg) initState st

/-! ### Structural invariants of the Job Record Store -/

/-- Job ids are pairwise distinct and below the id generator. -/
def IdInv (st : PState) : Prop :=
  st.jobs.Pairwise (fun a b => a.id ≠ b.id) ∧ ∀ j ∈ st.jobs, j.id < st.nextId

/-- Per-Job data-model invariant: the attempts counter is bounded by the
retry ceiling, a `queued` Job still has a retry budget, a terminal
`failed` Job has exhausted it exactly, and the output/error fields are
set iff the status says so. -/
def StatusOk (cfg : Config) (j : Job) : Prop :=
  j.attempts ≤ cfg.max_retries ∧
  (j.status = JobStatus.queued → j.attempts < cfg.max_retries) ∧
  (j.status = JobStatus.failed → j.attempts = cfg.max_retries) ∧
  (j.processed_path ≠ none ↔ j.status = JobStatus.completed) ∧
  (j.error_message ≠ none ↔ j.status = JobStatus.failed)

def StatusInv (cfg : Config) (st : PState) : Prop :=
  ∀ j ∈ st.jobs, StatusOk cfg j

/-- How many active Jobs reference source path `p`. -/
def activeCount (jobs : List Job) (p : String) : Nat :=
  jobs.countP (fun j => j.source_path == p && isActive j)

/-- The dedup invariant: at most one active Job per source path. -/
def AtMostOneActive (st : PState) : Prop :=
  ∀ p, activeCount st.jobs p ≤ 1

/-! ### Helper lemmas -/

theorem countP_eq_of_mem {α : Type} (l : List α) (p q : α → Bool)
    (h : ∀ a ∈ l, p a = q a) : l.countP p = l.countP q := by
  induction l with
  | nil => rfl
  | cons a l ih =>
    rw [List.countP_cons, List.countP_cons, h a (List.mem_cons_self a l),
      ih (fun b hb => h b (List.mem_cons_of_mem a hb))]

theorem uniqueId {l : List Job} (hpw : l.Pairwise (fun a b => a.id ≠ b.id)) :
    ∀ a ∈ l, ∀ b ∈ l, a.id = b.id → a = b := by
  induction l with
  | nil => intro a ha; exact absurd ha (List.not_mem_nil a)
  | cons x xs ih =>
    rcases List.pairwise_cons.mp hpw with ⟨hx, hxs⟩
    intro a ha b hb hab
    rcases List.mem_cons.mp ha with ha1 | ha2
    · rcases List.mem_cons.mp hb with hb1 | hb2
      · rw [ha1, hb1]
      · exact absurd (ha1 ▸ hab) (hx b hb2)
    · rcases List.mem_cons.mp hb with hb1 | hb2
      · exact absurd (hb1 ▸ hab).symm (hx a ha2)
      · exact ih hxs a ha2 b hb2 hab

theorem enqueue_ok {st : PState} {p : String} {j : Job} {st' : PState}
    (h : enqueue st p = Except.ok (j, st')) :
    hasActiveSource st.jobs p = false ∧ j = mkJob st.nextId p st.clock ∧
    st'.jobs = j :: st.jobs ∧ st'.queue = st.queue ++ [j.id] ∧
    st'.nextId = st.nextId + 1 ∧ st'.clock = st.clock + 1 ∧
    st'.delayed = st.delayed ∧ st'.processedFiles = st.processedFiles := by
  cases hb : hasActiveSource st.jobs p with
  | true => simp only [enqueue, hb, if_true] at h; cases h
  | false =>
    simp only [enqueue, hb, Bool.false_eq_true, if_false,
      Except.ok.injEq, Prod.mk.injEq] at h
    rcases h with ⟨hj, hst⟩
    subst hj
    rw [← hst]
    exact ⟨rfl, rfl, rfl, rfl, rfl, rfl, rfl, rfl⟩

theorem findJob_mem {jobs : List Job} {i : Nat} {j : Job}
    (h : findJob jobs i = some j) : j ∈ jobs ∧ j.id = i := by
  refine ⟨List.mem_of_find?_eq_some h, ?_⟩
  have := List.find?_some h
  simpa using this

/-- Every element of `updateJob jobs i f` is an untouched old element or
the image under `f` of the (unique) Job with id `i`. -/
theorem mem_updateJob {jobs : List Job} {i : Nat} {f : Job → Job} {j : Job}
    (hpw : jobs.Pairwise (fun a b => a.id ≠ b.id))
    (hfind : findJob jobs i = some j) :
    ∀ k ∈ updateJob jobs i f, (k ∈ jobs ∨ k = f j) := by
  intro k hk
  rcases List.mem_map.mp hk with ⟨a, ha, hak⟩
  by_cases hai : (a.id == i) = true
  · right
    have : a = j := uniqueId hpw a ha j (findJob_mem hfind).1
      (by rw [(findJob_mem hfind).2]; exact beq_iff_eq.mp hai)
    rw [← hak, hai]; simp [this]
  · left
    rwa [← hak, if_neg hai]

theorem updateJob_pairwise {jobs : List Job} {i : Nat} {f : Job → Job}
    (hid : ∀ a, (f a).id = a.id)
    (hpw : jobs.Pairwise (fun a b => a.id ≠ b.id)) :
    (updateJob jobs i f).Pairwise (fun a b => a.id ≠ b.id) := by
  refine List.Pairwise.map _ ?_ hpw
  intro a b hab
  by_cases ha : (a.id == i) = true <;> by_cases hb : (b.id == i) = true <;>
    simp [ha, hb, hid, hab]

theorem updateJob_id_lt {jobs : List Job} {i n : Nat} {f : Job → Job}
    (hid : ∀ a, (f a).id = a.id) (h : ∀ a ∈ jobs, a.id < n) :
    ∀ k ∈ updateJob jobs i f, k.id < n := by
  intro k hk
  rcases List.mem_map.mp hk with ⟨a, ha, hak⟩
  by_cases hai : (a.id == i) = true
  · rw [← hak, if_pos hai, hid]; exact h a ha
  · rw [← hak, if_neg hai]; exact h a ha

theorem idInv_enqueue {st : PState} {p : String} {j : Job} {st' : PState}
    (h : enqueue st p = Except.ok (j, st')) (hinv : IdInv st) : IdInv st' := by
  rcases enqueue_ok h with ⟨-, hj, hjobs, -, hnext, -, -, -⟩
  constructor
  · rw [hjobs]
    refine List.pairwise_cons.mpr ⟨?_, hinv.1⟩
    intro b hb
    rw [hj]
    exact Nat.ne_of_gt (hinv.2 b hb)
  · rw [hjobs, hnext]
    intro k hk
    rcases List.mem_cons.mp hk with hk1 | hk2
    · rw [hk1, hj]; exact Nat.lt_succ_self _
    · exact Nat.lt_succ_of_lt (hinv.2 k hk2)

theorem idInv_update {st : PState} {i : Nat} {f : Job → Job}
    (hid : ∀ a, (f a).id = a.id) (hinv : IdInv st) :
    (updateJob st.jobs i f).Pairwise (fun a b => a.id ≠ b.id) ∧
    (∀ k ∈ updateJob st.jobs i f, k.id < st.nextId) :=
  ⟨updateJob_pairwise hid hinv.1, updateJob_id_lt hid hinv.2⟩

theorem idInv_fail {cfg : Config} {st : PState} {i : Nat} {msg : String}
    (hinv : IdInv st) : IdInv (failJob cfg st i msg) := by
  cases hf : findJob st.jobs i with
  | none => simpa [failJob, hf] using hinv
  | some j =>
    by_cases hlt : j.attempts < cfg.max_retries <;>
      · simp only [failJob, hf, hlt, if_true, if_false, IdInv]
        exact idInv_update (by intro a; rfl) hinv

theorem idInv_scan (incoming : List String) :
    ∀ st : PState, IdInv st → IdInv (scan st incoming).1 := by
  induction incoming with
  | nil => intro st h; exact h
  | cons p ps ih =>
    intro st h
    by_cases hs : shouldEnqueue st p = true
    · cases henq : enqueue st p with
      | ok r =>
        simp only [scan, hs, if_true, henq]
        exact ih r.2 (idInv_enqueue (by rw [henq]) h)
      | error e => simp only [scan, hs, if_true, henq]; exact ih st h
    · simp only [scan, hs, if_false]
      simp only [Bool.not_eq_true] at hs
      simp only [hs, Bool.false_eq_true, if_false]
      exact ih st h

theorem idInv_step {cfg : Config} {st st' : PState}
    (hstep : Step cfg st st') (hinv : IdInv st) : IdInv st' := by
  cases hstep with
  | enqueueStep p j st'' h => exact idInv_enqueue h hinv
  | startStep i j hq hf hs => exact idInv_update (by intro a; rfl) hinv
  | completeStep i j out hf hs => exact idInv_update (by intro a; rfl) hinv
  | failStep i j msg hf hs => exact idInv_fail hinv
  | elapseStep i d hd => exact hinv
  | deleteStep i => exact idInv_update (by intro a; rfl) hinv
  | scanStep incoming => exact idInv_scan incoming st hinv

theorem reachable_idInv {cfg : Config} {st : PState}
    (hr : Reachable cfg st) : IdInv st := by
  induction hr with
  | refl => exact ⟨List.Pairwise.nil, by intro j hj; cases hj⟩
  | tail hsteps hstep ih => exact idInv_step hstep ih

theorem status_fields_none {cfg : Config} {j : Job} (hok : StatusOk cfg j)
    (hnotc : j.status ≠ JobStatus.completed)
    (hnotf : j.status ≠ JobStatus.failed) :
    j.processed_path = none ∧ j.error_message = none := by
  rcases hok with ⟨-, -, -, hproc, herr⟩
  constructor
  · by_contra hne; exact hnotc (hproc.mp hne)
  · by_contra hne; exact hnotf (herr.mp hne)

theorem statusOk_mk {cfg : Config} (h1 : 1 ≤ cfg.max_retries)
    (i : Nat) (p : String) (t : Nat) : StatusOk cfg (mkJob i p t) := by
  refine ⟨?_, ?_, ?_, ?_, ?_⟩ <;> simp [mkJob]
  exact h1

theorem statusOk_start {cfg : Config} {j : Job} (c : Nat)
    (hok : StatusOk cfg j) (hq : j.status = JobStatus.queued) :
    StatusOk cfg { j with
      status := JobStatus.processing
      attempts := j.attempts + 1
      updated_at := c } := by
  obtain ⟨hpp, hee⟩ := status_fields_none hok
    (by rw [hq]; intro h; cases h) (by rw [hq]; intro h; cases h)
  rcases hok with ⟨hle, hqlt, -, -, -⟩
  refine ⟨Nat.succ_le_of_lt (hqlt hq), ?_, ?_, ?_, ?_⟩ <;> simp [hpp, hee]

theorem statusOk_complete {cfg : Config} {j : Job} (out : String) (c : Nat)
    (hok : StatusOk cfg j) (hp : j.status = JobStatus.processing) :
    StatusOk cfg { j with
      status := JobStatus.completed
      processed_path := some out
      updated_at := c } := by
  obtain ⟨hpp, hee⟩ := status_fields_none hok
    (by rw [hp]; intro h; cases h) (by rw [hp]; intro h; cases h)
  rcases hok with ⟨hle, -, -, -, -⟩
  refine ⟨hle, ?_, ?_, ?_, ?_⟩ <;> simp [hpp, hee]

theorem statusOk_requeue {cfg : Config} {j : Job} (c : Nat)
    (hok : StatusOk cfg j) (hp : j.status = JobStatus.processing)
    (hlt : j.attempts < cfg.max_retries) :
    StatusOk cfg { j with status := JobStatus.queued, updated_at := c } := by
  obtain ⟨hpp, hee⟩ := status_fields_none hok
    (by rw [hp]; intro h; cases h) (by rw [hp]; intro h; cases h)
  rcases hok with ⟨hle, -, -, -, -⟩
  refine ⟨hle, ?_, ?_, ?_, ?_⟩ <;> simp [hpp, hee]
  exact hlt

theorem statusOk_terminal {cfg : Config} {j : Job} (msg : String) (c : Nat)
    (hok : StatusOk cfg j) (hp : j.status = JobStatus.processing)
    (hge : ¬ j.attempts < cfg.max_retries) :
    StatusOk cfg { j with
      status := JobStatus.failed
      error_message := some msg
      updated_at := c } := by
  obtain ⟨hpp, hee⟩ := status_fields_none hok
    (by rw [hp]; intro h; cases h) (by rw [hp]; intro h; cases h)
  rcases hok with ⟨hle, -, -, -, -⟩
  refine ⟨hle, ?_, ?_, ?_, ?_⟩ <;> simp [hpp, hee]
  exact Nat.le_antisymm hle (Nat.le_of_not_lt hge)

theorem statusOk_delete {cfg : Config} {j : Job} (c : Nat)
    (hok : StatusOk cfg j) :
    StatusOk cfg { j with is_deleted := true, updated_at := c } := hok

theorem statusInv_enqueue {cfg : Config} {st : PState} {p : String}
    {j : Job} {st' : PState} (h1 : 1 ≤ cfg.max_retries)
    (h : enqueue st p = Except.ok (j, st')) (hinv : StatusInv cfg st) :
    StatusInv cfg st' := by
  rcases enqueue_ok h with ⟨-, hj, hjobs, -, -, -, -, -⟩
  intro k hk
  rw [hjobs] at hk
  rcases List.mem_cons.mp hk with hk1 | hk2
  · rw [hk1, hj]; exact statusOk_mk h1 _ _ _
  · exact hinv k hk2

theorem statusInv_start {cfg : Config} {st : PState} {i : Nat} {j : Job}
    (hid : IdInv st) (hfind : findJob st.jobs i = some j)
    (hq : j.status = JobStatus.queued) (hinv : StatusInv cfg st) :
    StatusInv cfg (startJob st i) := by
  intro k hk
  rcases mem_updateJob hid.1 hfind k hk with hk1 | hk2
  · exact hinv k hk1
  · rw [hk2]
    exact statusOk_start st.clock (hinv j (findJob_mem hfind).1) hq

theorem statusInv_complete {cfg : Config} {st : PState} {i : Nat} {j : Job}
    {out : String} (hid : IdInv st) (hfind : findJob st.jobs i = some j)
    (hp : j.status = JobStatus.processing) (hinv : StatusInv cfg st) :
    StatusInv cfg (completeJob st i out) := by
  intro k hk
  rcases mem_updateJob hid.1 hfind k hk with hk1 | hk2
  · exact hinv k hk1
  · rw [hk2]
    exact statusOk_complete out st.clock (hinv j (findJob_mem hfind).1) hp

theorem statusInv_fail {cfg : Config} {st : PState} {i : Nat} {j : Job}
    {msg : String} (hid : IdInv st) (hfind : findJob st.jobs i = some j)
    (hp : j.status = JobStatus.processing) (hinv : StatusInv cfg st) :
    StatusInv cfg (failJob cfg st i msg) := by
  by_cases hlt : j.attempts < cfg.max_retries
  · simp only [failJob, hfind, hlt, if_true]
    intro k hk
    rcases mem_updateJob hid.1 hfind k hk with hk1 | hk2
    · exact hinv k hk1
    · rw [hk2]
      exact statusOk_requeue st.clock (hinv j (findJob_mem hfind).1) hp hlt
  · simp only [failJob, hfind, hlt, if_false]
    intro k hk
    rcases mem_updateJob hid.1 hfind k hk with hk1 | hk2
    · exact hinv k hk1
    · rw [hk2]
      exact statusOk_terminal msg st.clock (hinv j (findJob_mem hfind).1) hp hlt

theorem statusInv_delete {cfg : Config} {st : PState} {i : Nat}
    (hinv : StatusInv cfg st) : StatusInv cfg (softDelete st i) := by
  intro k hk
  rcases List.mem_map.mp hk with ⟨a, ha, hak⟩
  by_cases hai : (a.id == i) = true
  · rw [← hak, if_pos hai]
    exact statusOk_delete st.clock (hinv a ha)
  · rw [← hak, if_neg hai]
    exact hinv a ha

theorem statusInv_scan {cfg : Config} (h1 : 1 ≤ cfg.max_retries)
    (incoming : List String) :
    ∀ st : PState, StatusInv cfg st → StatusInv cfg (scan st incoming).1 := by
  induction incoming with
  | nil => intro st h; exact h
  | cons p ps ih =>
    intro st h
    by_cases hs : shouldEnqueue st p = true
    · cases henq : enqueue st p with
      | ok r =>
        simp only [scan, hs, if_true, henq]
        exact ih r.2 (statusInv_enqueue h1 (by rw [henq]) h)
      | error e => simp only [scan, hs, if_true, henq]; exact ih st h
    · simp only [Bool.not_eq_true] at hs
      simp only [scan, hs, Bool.false_eq_true, if_false]
      exact ih st h

theorem statusInv_step {cfg : Config} {st st' : PState}
    (h1 : 1 ≤ cfg.max_retries) (hid : IdInv st)
    (hstep : Step cfg st st') (hinv : StatusInv cfg st) : StatusInv cfg st' := by
  cases hstep with
  | enqueueStep p j st'' h => exact statusInv_enqueue h1 h hinv
  | startStep i j hq hf hs => exact statusInv_start hid hf hs hinv
  | completeStep i j out hf hs => exact statusInv_complete hid hf hs hinv
  | failStep i j msg hf hs => exact statusInv_fail hid hf hs hinv
  | elapseStep i d hd => exact hinv
  | deleteStep i => exact statusInv_delete hinv
  | scanStep incoming => exact statusInv_scan h1 incoming st hinv

theorem reachable_statusInv {cfg : Config} {st : PState}
    (h1 : 1 ≤ cfg.max_retries) (hr : Reachable cfg st) : StatusInv cfg st := by
  induction hr with
  | refl => intro j hj; cases hj
  | tail hsteps hstep ih =>
    exact statusInv_step h1 (reachable_idInv (Relation.ReflTransGen.trans
      (Relation.ReflTransGen.refl) hsteps)) hstep ih

theorem activeCount_zero {jobs : List Job} {p : String}
    (h : hasActiveSource jobs p = false) : activeCount jobs p = 0 := by
  refine List.countP_eq_zero.mpr ?_
  intro a ha hp
  have hx : jobs.any (fun k => k.source_path == p && isActive k) = true :=
    List.any_eq_true.mpr ⟨a, ha, hp⟩
  rw [hasActiveSource, hx] at h
  cases h

theorem activeCount_enqueue {st : PState} {p : String} {j : Job} {st' : PState}
    (h : enqueue st p = Except.ok (j, st'))
    (ha : AtMostOneActive st) : AtMostOneActive st' := by
  rcases enqueue_ok h with ⟨hdup, hj, hjobs, -, -, -, -, -⟩
  intro q
  unfold activeCount
  rw [hjobs, List.countP_cons]
  by_cases hpq : p = q
  · subst hpq
    have h0 : st.jobs.countP (fun k => k.source_path == p && isActive k) = 0 :=
      activeCount_zero hdup
    rw [h0]
    split <;> omega
  · have hne : (j.source_path == q) = false := by
      rw [hj]
      exact beq_eq_false_iff_ne.mpr hpq
    rw [hne]
    simp only [Bool.false_and, Bool.false_eq_true, if_false]
    have := ha q
    unfold activeCount at this
    omega

/-- Updating the unique Job with id `i` through a transformation that keeps
the source path and does not activate an inactive Job cannot increase the
number of active Jobs per path. -/
theorem activeCount_update_le {jobs : List Job} {i : Nat} {f : Job → Job}
    {j : Job} (hpw : jobs.Pairwise (fun a b => a.id ≠ b.id))
    (hfind : findJob jobs i = some j)
    (hpath : (f j).source_path = j.source_path)
    (hact : isActive (f j) = true → isActive j = true) (q : String) :
    activeCount (updateJob jobs i f) q ≤ activeCount jobs q := by
  unfold activeCount updateJob
  rw [List.countP_map]
  refine List.countP_mono_left ?_
  intro a ha hpa
  simp only [Function.comp] at hpa
  by_cases hai : (a.id == i) = true
  · have haj : a = j := uniqueId hpw a ha j (findJob_mem hfind).1
      (by rw [(findJob_mem hfind).2]; exact beq_iff_eq.mp hai)
    rw [if_pos hai, haj] at hpa
    simp only [Bool.and_eq_true] at hpa
    rw [haj]
    simp only [Bool.and_eq_true]
    refine ⟨?_, hact hpa.2⟩
    have := hpa.1
    rwa [hpath] at this
  · rwa [if_neg hai] at hpa

theorem active_start {st : PState} {i : Nat} {j : Job}
    (hid : IdInv st) (hfind : findJob st.jobs i = some j)
    (hq : j.status = JobStatus.queued)
    (ha : AtMostOneActive st) : AtMostOneActive (startJob st i) := by
  intro q
  refine Nat.le_trans (activeCount_update_le hid.1 hfind rfl ?_ q) (ha q)
  intro _
  show (j.status == JobStatus.queued || j.status == JobStatus.processing) = true
  rw [hq]
  decide

theorem active_complete {st : PState} {i : Nat} {out : String} {j : Job}
    (hid : IdInv st) (hfind : findJob st.jobs i = some j)
    (ha : AtMostOneActive st) : AtMostOneActive (completeJob st i out) := by
  intro q
  refine Nat.le_trans (activeCount_update_le hid.1 hfind rfl ?_ q) (ha q)
  intro h
  have h2 : false = true := h
  exact Bool.noConfusion h2

theorem active_fail {cfg : Config} {st : PState} {i : Nat} {msg : String}
    {j : Job} (hid : IdInv st) (hfind : findJob st.jobs i = some j)
    (hp : j.status = JobStatus.processing) (ha : AtMostOneActive st) :
    AtMostOneActive (failJob cfg st i msg) := by
  by_cases hlt : j.attempts < cfg.max_retries
  · simp only [failJob, hfind, hlt, if_true]
    intro q
    refine Nat.le_trans (activeCount_update_le hid.1 hfind rfl ?_ q) (ha q)
    intro _
    show (j.status == JobStatus.queued || j.status == JobStatus.processing) = true
    rw [hp]
    decide
  · simp only [failJob, hfind, hlt, if_false]
    intro q
    refine Nat.le_trans (activeCount_update_le hid.1 hfind rfl ?_ q) (ha q)
    intro h
    have h2 : false = true := h
    exact Bool.noConfusion h2

theorem active_delete {st : PState} {i : Nat}
    (ha : AtMostOneActive st) : AtMostOneActive (softDelete st i) := by
  intro q
  refine Nat.le_trans ?_ (ha q)
  unfold activeCount softDelete updateJob
  simp only []
  rw [List.countP_map]
  refine List.countP_mono_left ?_
  intro a _ hpa
  simp only [Function.comp] at hpa
  by_cases hai : (a.id == i) = true
  · rw [if_pos hai] at hpa
    exact hpa
  · rwa [if_neg hai] at hpa

theorem active_scan (incoming : List String) :
    ∀ st : PState, AtMostOneActive st → AtMostOneActive (scan st incoming).1 := by
  induction incoming with
  | nil => intro st h; exact h
  | cons p ps ih =>
    intro st h
    by_cases hs : shouldEnqueue st p = true
    · cases henq : enqueue st p with
      | ok r =>
        simp only [scan, hs, if_true, henq]
        exact ih r.2 (activeCount_enqueue (by rw [henq]) h)
      | error e => simp only [scan, hs, if_true, henq]; exact ih st h
    · simp only [Bool.not_eq_true] at hs
      simp only [scan, hs, Bool.false_eq_true, if_false]
      exact ih st h

theorem active_step {cfg : Config} {st st' : PState} (hid : IdInv st)
    (hstep : Step cfg st st') (ha : AtMostOneActive st) : AtMostOneActive st' := by
  cases hstep with
  | enqueueStep p j st'' h => exact activeCount_enqueue h ha
  | startStep i j hq hf hs => exact active_start hid hf hs ha
  | completeStep i j out hf hs => exact active_complete hid hf ha
  | failStep i j msg hf hs => exact active_fail hid hf hs ha
  | elapseStep i d hd => exact ha
  | deleteStep i => exact active_delete ha
  | scanStep incoming => exact active_scan incoming st ha

theorem reachable_active {cfg : Config} {st : PState}
    (hr : Reachable cfg st) : AtMostOneActive st := by
  induction hr with
  | refl => intro p; rw [activeCount]; exact Nat.le_of_lt Nat.one_pos
  | tail hsteps hstep ih =>
    exact active_step (reachable_idInv (Relation.ReflTransGen.trans
      (Relation.ReflTransGen.refl) hsteps)) hstep ih

theorem findJob_updateJob {jobs : List Job} {i : Nat} {j : Job} {f : Job → Job}
    (hid : ∀ a, (f a).id = a.id) (hf : findJob jobs i = some j) :
    findJob (updateJob jobs i f) i = some (f j) := by
  induction jobs with
  | nil => cases hf
  | cons a l ih =>
    cases hai : (a.id == i) with
    | true =>
      simp only [findJob, List.find?_cons, hai] at hf
      have haj : a = j := by injection hf
      subst haj
      simp only [updateJob, List.map_cons, findJob,
        List.find?_cons, hid a, hai, if_true]
    | false =>
      simp only [findJob, List.find?_cons, hai] at hf
      simp only [updateJob, List.map_cons, findJob, List.find?_cons, hai,
        Bool.false_eq_true, if_false]
      exact ih hf

/-! ### Claim theorems for the Job Manager, Journal and Scheduler -/

/-- Claim C1: `enqueue(source_path)` fails with `DuplicateSourceError` iff an
active (`queued`/`processing`) Job already references that source path;
otherwise it creates exactly one new Job in status `queued` and returns it.
In every reachable state at most one active Job exists per source path, and
the property is preserved by every further serialized transition, which is
how concurrent `enqueue` calls (serialized by the single-writer gate) are
modelled. -/
theorem C1_enqueue_dedup (cfg : Config) (st : PState) (p : String)
    (hr : Reachable cfg st) :
    (enqueue st p = Except.error EnqueueError.DuplicateSourceError ↔
      hasActiveSource st.jobs p = true) ∧
    (∀ j st', enqueue st p = Except.ok (j, st') →
      j.status = JobStatus.queued ∧ j.source_path = p ∧
      st'.jobs = j :: st.jobs) ∧
    AtMostOneActive st ∧
    (∀ st', Step cfg st st' → AtMostOneActive st') := by
  refine ⟨⟨?_, ?_⟩, ?_, reachable_active hr, ?_⟩
  · intro h
    cases hb : hasActiveSource st.jobs p with
    | true => rfl
    | false => simp [enqueue, hb] at h
  · intro hb
    simp [enqueue, hb]
  · intro j st' h
    rcases enqueue_ok h with ⟨-, hj, hjobs, -, -, -, -, -⟩
    exact ⟨by rw [hj]; rfl, by rw [hj]; rfl, hjobs⟩
  · intro st' hstep
    exact active_step (reachable_idInv hr) hstep (reachable_active hr)

/-- The default configuration of the service:
`MAX_RETRIES=3`, `RETRY_BACKOFF_FACTOR=2.0`, `RETRY_INITIAL_DELAY=1.0`. -/
def cfgW : Config :=
  { max_retries := 3, backoff_factor := 2, initial_delay := 1 }

def stC1 : PState :=
  { jobs := [mkJob 0 "slides.pptx" 0], queue := [0], delayed := [],
    processedFiles := [], nextId := 1, clock := 1 }

theorem reachC1 : Reachable cfgW stC1 :=
  Relation.ReflTransGen.single
    (Step.enqueueStep initState "slides.pptx" (mkJob 0 "slides.pptx" 0) stC1 rfl)

/-- Witness for C1: after one `enqueue("slides.pptx")`, a second
`enqueue` of the same path is rejected with `DuplicateSourceError`. -/
theorem C1_enqueue_dedup_witness :
    enqueue stC1 "slides.pptx" =
      Except.error EnqueueError.DuplicateSourceError :=
  (C1_enqueue_dedup cfgW stC1 "slides.pptx" reachC1).1.mpr (by decide)

/-- Claim C2: for every Job of a reachable state, `attempts` never exceeds
`max_retries`, and a Job in the terminal `failed` status has `attempts`
equal to exactly `max_retries`. -/
theorem C2_attempts_bounded (cfg : Config) (st : PState)
    (h1 : 1 ≤ cfg.max_retries) (hr : Reachable cfg st) :
    ∀ j ∈ st.jobs, j.attempts ≤ cfg.max_retries ∧
      (j.status = JobStatus.failed → j.attempts = cfg.max_retries) := by
  intro j hj
  rcases reachable_statusInv h1 hr j hj with ⟨ha, -, hf, -, -⟩
  exact ⟨ha, hf⟩

def cfgC2 : Config := { max_retries := 1, backoff_factor := 2, initial_delay := 1 }

def stC2a : PState :=
  { jobs := [mkJob 0 "broken.docx" 0], queue := [0], delayed := [],
    processedFiles := [], nextId := 1, clock := 1 }

def jobC2 : Job :=
  { id := 0, source_path := "broken.docx", status := JobStatus.failed,
    attempts := 1, processed_path := none, error_message := some "boom",
    created_at := 0, updated_at := 2, is_deleted := false }

def stC2 : PState :=
  { jobs := [jobC2], queue := [], delayed := [], processedFiles := [],
    nextId := 1, clock := 3 }

theorem reachC2 : Reachable cfgC2 stC2 :=
  Relation.ReflTransGen.head
    (Step.enqueueStep initState "broken.docx" (mkJob 0 "broken.docx" 0) stC2a rfl)
    (Relation.ReflTransGen.head
      (Step.startStep stC2a 0 (mkJob 0 "broken.docx" 0) rfl rfl rfl)
      (Relation.ReflTransGen.single
        (Step.failStep (startJob stC2a 0) 0
          { id := 0, source_path := "broken.docx",
            status := JobStatus.processing, attempts := 1,
            processed_path := none, error_message := none,
            created_at := 0, updated_at := 1, is_deleted := false }
          "boom" rfl rfl)))

/-- Witness for C2: a Job that exhausted its retries (`max_retries = 1`)
ends `failed` with `attempts = max_retries`. -/
theorem C2_attempts_bounded_witness : jobC2.attempts = cfgC2.max_retries :=
  (C2_attempts_bounded cfgC2 stC2 (by decide) reachC2 jobC2
    (List.mem_singleton.mpr rfl)).2 rfl

/-- Claim C3: for every Job of a reachable state (i.e. after every pipeline
operation), `processed_path` is non-null iff the status is `completed`, and
`error_message` is non-null iff the status is `failed`. -/
theorem C3_fields_iff_status (cfg : Config) (st : PState)
    (h1 : 1 ≤ cfg.max_retries) (hr : Reachable cfg st) :
    ∀ j ∈ st.jobs,
      (j.processed_path ≠ none ↔ j.status = JobStatus.completed) ∧
      (j.error_message ≠ none ↔ j.status = JobStatus.failed) := by
  intro j hj
  rcases reachable_statusInv h1 hr j hj with ⟨-, -, -, hp, he⟩
  exact ⟨hp, he⟩

/-- Witness for C3: the terminally failed Job of the C2 run carries a
non-null `error_message`. -/
theorem C3_fields_iff_status_witness : jobC2.error_message ≠ none :=
  ((C3_fields_iff_status cfgC2 stC2 (by decide) reachC2 jobC2
    (List.mem_singleton.mpr rfl)).2).mpr rfl

/-- Claim C4: when the attempt of a `processing` Job fails while
`attempts < max_retries`, the worker loop schedules a delayed re-enqueue
whose delay is exactly `initial_delay * backoff_factor ^ (attempts - 1)`
(where `attempts` already counts the failed attempt); the Job is re-queued
and never deleted, and it is not put back on the immediate dispatch
queue during the delay window. -/
theorem C4_backoff_delay (cfg : Config) (st : PState) (i : Nat) (j : Job)
    (msg : String) (hf : findJob st.jobs i = some j)
    (hp : j.status = JobStatus.processing) (h1 : 1 ≤ j.attempts)
    (hlt : j.attempts < cfg.max_retries) (hq : i ∉ st.queue) :
    (i, cfg.initial_delay * cfg.backoff_factor ^ (j.attempts - 1)) ∈
      (failJob cfg st i msg).delayed ∧
    (∃ j', findJob (failJob cfg st i msg).jobs i = some j' ∧
      j'.status = JobStatus.queued ∧ j'.attempts = j.attempts) ∧
    i ∉ (failJob cfg st i msg).queue := by
  simp only [failJob, hf, hlt, if_true]
  refine ⟨List.mem_cons_self _ _, ?_, hq⟩
  refine ⟨{ j with status := JobStatus.queued, updated_at := st.clock },
    ?_, rfl, rfl⟩
  exact findJob_updateJob (fun a => rfl) hf

def jobC4 : Job :=
  { id := 0, source_path := "report.pdf", status := JobStatus.processing,
    attempts := 1, processed_path := none, error_message := none,
    created_at := 0, updated_at := 1, is_deleted := false }

def stC4 : PState :=
  { jobs := [jobC4], queue := [], delayed := [], processedFiles := [],
    nextId := 1, clock := 2 }

/-- Witness for C4: the first failed attempt of `report.pdf` under the
default configuration schedules a delay of `1 * 2 ^ 0`. -/
theorem C4_backoff_delay_witness :
    (0, cfgW.initial_delay * cfgW.backoff_factor ^ (1 - 1)) ∈
      (failJob cfgW stC4 0 "CorruptInputError").delayed :=
  (C4_backoff_delay cfgW stC4 0 jobC4
    "CorruptInputError" rfl rfl (by decide) (by decide)
    (List.not_mem_nil 0)).1

/-! ### Journal ordering lemmas -/

theorem jobKeyLe_total (a b : Job) :
    jobKeyLe a b = true ∨ jobKeyLe b a = true := by
  simp only [jobKeyLe, Bool.or_eq_true, Bool.and_eq_true,
    decide_eq_true_eq, beq_iff_eq]
  omega

theorem jobKeyLe_trans {a b c : Job} (hab : jobKeyLe a b = true)
    (hbc : jobKeyLe b c = true) : jobKeyLe a c = true := by
  simp only [jobKeyLe, Bool.or_eq_true, Bool.and_eq_true,
    decide_eq_true_eq, beq_iff_eq] at hab hbc ⊢
  omega

theorem insertJob_perm (j : Job) (l : List Job) :
    (insertJob j l).Perm (j :: l) := by
  induction l with
  | nil => exact List.Perm.refl _
  | cons k ks ih =>
    by_cases h : jobKeyLe j k = true
    · rw [insertJob, if_pos h]
    · rw [insertJob, if_neg h]
      exact List.Perm.trans (List.Perm.cons k ih) (List.Perm.swap j k ks)

theorem sortJobs_perm (l : List Job) : (sortJobs l).Perm l := by
  induction l with
  | nil => exact List.Perm.refl _
  | cons j js ih =>
    exact List.Perm.trans (insertJob_perm j (sortJobs js)) (List.Perm.cons j ih)

theorem mem_insertJob {x j : Job} {l : List Job} :
    x ∈ insertJob j l ↔ x = j ∨ x ∈ l := by
  rw [(insertJob_perm j l).mem_iff, List.mem_cons]

theorem pairwise_insertJob {j : Job} {l : List Job}
    (hl : l.Pairwise (fun a b => jobKeyLe a b = true)) :
    (insertJob j l).Pairwise (fun a b => jobKeyLe a b = true) := by
  induction l with
  | nil => exact List.pairwise_singleton _ _
  | cons k ks ih =>
    rcases List.pairwise_cons.mp hl with ⟨hk, hks⟩
    by_cases h : jobKeyLe j k = true
    · rw [insertJob, if_pos h]
      refine List.pairwise_cons.mpr ⟨?_, hl⟩
      intro x hx
      rcases List.mem_cons.mp hx with hx1 | hx2
      · rw [hx1]; exact h
      · exact jobKeyLe_trans h (hk x hx2)
    · rw [insertJob, if_neg h]
      refine List.pairwise_cons.mpr ⟨?_, ih hks⟩
      intro x hx
      rcases mem_insertJob.mp hx with hx1 | hx2
      · rw [hx1]
        rcases jobKeyLe_total j k with hjk | hkj
        · exact absurd hjk h
        · exact hkj
      · exact hk x hx2

theorem pairwise_sortJobs (l : List Job) :
    (sortJobs l).Pairwise (fun a b => jobKeyLe a b = true) := by
  induction l with
  | nil => exact List.Pairwise.nil
  | cons j js ih => exact pairwise_insertJob ih

theorem insertJob_front {j : Job} {l : List Job}
    (h : ∀ x ∈ l, jobKeyLe j x = true) : insertJob j l = j :: l := by
  cases l with
  | nil => rfl
  | cons k ks =>
    rw [insertJob, if_pos (h k (List.mem_cons_self k ks))]

theorem filter_insertJob (q : Job → Bool) {j : Job} {l : List Job}
    (hl : l.Pairwise (fun a b => jobKeyLe a b = true)) :
    List.filter q (insertJob j l) =
      if q j then insertJob j (List.filter q l) else List.filter q l := by
  induction l with
  | nil =>
    rw [insertJob, List.filter_cons]
    cases hq : q j <;> simp [hq, insertJob]
  | cons k ks ih =>
    rcases List.pairwise_cons.mp hl with ⟨hk, hks⟩
    by_cases hjk : jobKeyLe j k = true
    · rw [insertJob, if_pos hjk, List.filter_cons]
      cases hq : q j with
      | false =>
        simp only [Bool.false_eq_true, if_false]
      | true =>
        simp only [if_true]
        rw [insertJob_front]
        intro x hx
        rcases List.mem_filter.mp hx with ⟨hx1, -⟩
        rcases List.mem_cons.mp hx1 with hx2 | hx3
        · rw [hx2]; exact hjk
        · exact jobKeyLe_trans hjk (hk x hx3)
    · rw [insertJob, if_neg hjk, List.filter_cons, List.filter_cons]
      cases hqk : q k with
      | false =>
        simp only [Bool.false_eq_true, if_false]
        exact ih hks
      | true =>
        simp only [if_true]
        rw [ih hks]
        cases hq : q j with
        | false => simp only [Bool.false_eq_true, if_false]
        | true =>
          simp only [if_true]
          rw [insertJob, if_neg hjk]

theorem filter_sortJobs (q : Job → Bool) (l : List Job) :
    List.filter q (sortJobs l) = sortJobs (List.filter q l) := by
  induction l with
  | nil => rfl
  | cons j js ih =>
    rw [sortJobs, filter_insertJob q (pairwise_sortJobs js), ih,
      List.filter_cons]
    cases hq : q j <;> simp [hq, sortJobs]

/-- Claim C5: `changes_since(t)` returns exactly the Jobs with
`updated_at > t` (soft-deleted ones included, as membership does not
depend on `is_deleted`), ordered by `(updated_at, id)`; it is a pure
function of the store, so two calls with the same `t` agree, and for
`t' > t` the result is the filtered tail of the first call, hence a
sublist of it ordered consistently. -/
theorem C5_changes_since (jobs : List Job) (t t2 : Nat) (ht : t < t2) :
    (∀ j, j ∈ changes_since jobs t ↔ (j ∈ jobs ∧ t < j.updated_at)) ∧
    (changes_since jobs t).Pairwise (fun a b => jobKeyLe a b = true) ∧
    (changes_since jobs t2 =
      List.filter (fun j => t2 < j.updated_at) (changes_since jobs t)) ∧
    (changes_since jobs t2).Sublist (changes_since jobs t) := by
  have hfe : changes_since jobs t2 =
      List.filter (fun j => t2 < j.updated_at) (changes_since jobs t) := by
    rw [changes_since, changes_since, filter_sortJobs, List.filter_filter]
    congr 1
    refine List.filter_congr ?_
    intro x _
    by_cases h2 : t2 < x.updated_at
    · have h1 : t < x.updated_at := Nat.lt_trans ht h2
      simp [h2, h1]
    · simp [h2]
  refine ⟨?_, pairwise_sortJobs _, hfe, ?_⟩
  · intro j
    rw [changes_since, (sortJobs_perm _).mem_iff, List.mem_filter]
    simp
  · rw [hfe]
    exact List.filter_sublist _

def jobsC5 : List Job := [jobC2, jobC4]

/-- Witness for C5: over a two-Job store, the journal page for cursor 1 is
a sublist of the page for cursor 0. -/
theorem C5_changes_since_witness :
    (changes_since jobsC5 1).Sublist (changes_since jobsC5 0) :=
  (C5_changes_since jobsC5 0 1 (by decide)).2.2.2

/-! ### Scheduler idempotence -/

theorem shouldEnqueue_false_iff {st : PState} {p : String} :
    shouldEnqueue st p = false ↔
      (hasActiveSource st.jobs p = true ∨ hasCompletedOutput st p = true) := by
  cases ha : hasActiveSource st.jobs p <;>
    cases hb : hasCompletedOutput st p <;>
      simp [shouldEnqueue, ha, hb]

theorem hasActiveSource_mono {jobs jobs' : List Job} {p : String}
    (hsub : ∀ j ∈ jobs, j ∈ jobs')
    (h : hasActiveSource jobs p = true) : hasActiveSource jobs' p = true := by
  rcases List.any_eq_true.mp h with ⟨a, ha, hpa⟩
  exact List.any_eq_true.mpr ⟨a, hsub a ha, hpa⟩

theorem hasCompletedOutput_mono {st st' : PState} {p : String}
    (hsub : ∀ j ∈ st.jobs, j ∈ st'.jobs)
    (hpf : st'.processedFiles = st.processedFiles)
    (h : hasCompletedOutput st p = true) : hasCompletedOutput st' p = true := by
  rcases List.any_eq_true.mp h with ⟨a, ha, hpa⟩
  refine List.any_eq_true.mpr ⟨a, hsub a ha, ?_⟩
  rw [hpf]
  exact hpa

theorem shouldEnqueue_mono {st st' : PState} {p : String}
    (hsub : ∀ j ∈ st.jobs, j ∈ st'.jobs)
    (hpf : st'.processedFiles = st.processedFiles)
    (h : shouldEnqueue st p = false) : shouldEnqueue st' p = false := by
  rcases shouldEnqueue_false_iff.mp h with h1 | h2
  · exact shouldEnqueue_false_iff.mpr (Or.inl (hasActiveSource_mono hsub h1))
  · exact shouldEnqueue_false_iff.mpr (Or.inr (hasCompletedOutput_mono hsub hpf h2))

theorem scan_mono (ps : List String) :
    ∀ st : PState, (∀ j ∈ st.jobs, j ∈ (scan st ps).1.jobs) ∧
      (scan st ps).1.processedFiles = st.processedFiles := by
  induction ps with
  | nil => intro st; exact ⟨fun j hj => hj, rfl⟩
  | cons p ps ih =>
    intro st
    by_cases hs : shouldEnqueue st p = true
    · cases henq : enqueue st p with
      | ok r =>
        simp only [scan, hs, if_true, henq]
        rcases enqueue_ok (show enqueue st p = Except.ok (r.1, r.2) by rw [henq]) with
          ⟨-, -, hjobs, -, -, -, -, hpf⟩
        refine ⟨?_, ?_⟩
        · intro j hj
          refine (ih r.2).1 j ?_
          rw [hjobs]
          exact List.mem_cons_of_mem _ hj
        · rw [(ih r.2).2, hpf]
      | error e =>
        simp only [scan, hs, if_true, henq]
        exact ih st
    · simp only [Bool.not_eq_true] at hs
      simp only [scan, hs, Bool.false_eq_true, if_false]
      exact ih st

theorem enqueue_activates {st : PState} {p : String} {j : Job} {st' : PState}
    (h : enqueue st p = Except.ok (j, st')) :
    hasActiveSource st'.jobs p = true := by
  rcases enqueue_ok h with ⟨-, hj, hjobs, -, -, -, -, -⟩
  rw [hjobs]
  refine List.any_eq_true.mpr ⟨j, List.mem_cons_self _ _, ?_⟩
  rw [hj]
  simp [mkJob, isActive]
  decide

theorem scan_shouldEnqueue_false (ps : List String) :
    ∀ st : PState, ∀ p ∈ ps, shouldEnqueue (scan st ps).1 p = false := by
  induction ps with
  | nil => intro st p hp; cases hp
  | cons p0 rest ih =>
    intro st p hp
    by_cases hs : shouldEnqueue st p0 = true
    · cases henq : enqueue st p0 with
      | ok r =>
        simp only [scan, hs, if_true, henq]
        rcases List.mem_cons.mp hp with hp1 | hp2
        · subst hp1
          refine shouldEnqueue_mono (scan_mono rest r.2).1
            (scan_mono rest r.2).2 ?_
          exact shouldEnqueue_false_iff.mpr
            (Or.inl (enqueue_activates
              (show enqueue st p = Except.ok (r.1, r.2) by rw [henq])))
        · exact ih r.2 p hp2
      | error e =>
        exfalso
        have hact : hasActiveSource st.jobs p0 = false := by
          cases hact : hasActiveSource st.jobs p0 with
          | false => rfl
          | true =>
            rw [shouldEnqueue, hact] at hs
            simp at hs
        rw [enqueue, hact] at henq
        simp at henq
    · simp only [Bool.not_eq_true] at hs
      simp only [scan, hs, Bool.false_eq_true, if_false]
      rcases List.mem_cons.mp hp with hp1 | hp2
      · subst hp1
        exact shouldEnqueue_mono (scan_mono rest st).1 (scan_mono rest st).2 hs
      · exact ih st p hp2

theorem scan_count_zero (ps : List String) :
    ∀ st : PState, (∀ p ∈ ps, shouldEnqueue st p = false) →
      (scan st ps).2 = 0 := by
  induction ps with
  | nil => intro st _; rfl
  | cons p rest ih =>
    intro st h
    have hp := h p (List.mem_cons_self p rest)
    simp only [scan, hp, Bool.false_eq_true, if_false]
    exact ih st (fun q hq => h q (List.mem_cons_of_mem p hq))

/-- Claim C6: the Scheduler's reconciliation scan is idempotent: with the
incoming area unchanged, running the scan a second time right after a first
run enqueues zero new Jobs. -/
theorem C6_scan_idempotent (incoming : List String) (st : PState) :
    (scan (scan st incoming).1 incoming).2 = 0 :=
  scan_count_zero incoming (scan st incoming).1
    (scan_shouldEnqueue_false incoming st)

end FNS

namespace Web

/-! ### The synchronous `/convert` surface

`AssetResponse` and `ConvertResponse` embed the response types of
`src/lib/materialToMdApi.ts`; `convertRoutePOST` embeds the proxy route of
`src/app/api/material-to-md/convert/route.ts`; `convertFile` embeds the
client of `src/lib/materialToMdApi.ts`. -/

structure AssetResponse where
  path : String
  content_type : String
  data_base64 : String
deriving DecidableEq, Repr

structure ConvertResponse where
  markdown : String
  assets : List AssetResponse
deriving DecidableEq, Repr

/-- Modelled from the spec: Converter error taxonomy
(`Converter.py` is not in the sources). -/
inductive ConverterError
  | UnsupportedFormatError
  | CorruptInputError
deriving DecidableEq, Repr

/-- Modelled from the spec: the backend `POST /convert` endpoint (`app.py`
is not in the sources): a direct synchronous Converter invocation on the
uploaded bytes that bypasses the Job queue entirely — the pipeline state is
not consulted or mutated and no Job record is created. -/
def convertEndpoint
    (converter : List Nat → Except ConverterError (String × List AssetResponse))
    (st : FNS.PState) (file : List Nat) :
    Except ConverterError ConvertResponse × FNS.PState :=
  match converter file with
  | Except.ok (md, assets) => (Except.ok { markdown := md, assets := assets }, st)
  | Except.error e => (Except.error e, st)

/-- An HTTP response as seen by the TypeScript code: status, body text and
content type header. -/
structure HttpResponse where
  status : Nat
  body : String
  contentType : Option String
deriving DecidableEq, Repr

/-- Embeds `Response.ok` of the fetch API: status in the range 200-299. -/
def respOk (r : HttpResponse) : Bool :=
  200 ≤ r.status && r.status ≤ 299

/-- The proxy route `POST` of
`src/app/api/material-to-md/convert/route.ts`: with no
`MATERIAL_TO_MD_BASE_URL` it answers 500; otherwise it forwards the form
to the backend and returns the backend's status and body text unchanged,
defaulting the content type to `application/json`. -/
def convertRoutePOST (base : Option String)
    (backend : String → HttpResponse) (form : String) : HttpResponse :=
  match base with
  | none =>
    { status := 500, body := "Missing MATERIAL_TO_MD_BASE_URL",
      contentType := none }
  | some _ =>
    let r := backend form
    { status := r.status, body := r.body,
      contentType := some (r.contentType.getD "application/json") }

/-- Embeds `convertFile` of `src/lib/materialToMdApi.ts`: on a non-ok response it
throws an `Error` carrying the response text (or `"Conversion failed"`
when that text is empty); otherwise it returns the parsed JSON body. -/
def convertFile (parseJson : String → ConvertResponse)
    (r : HttpResponse) : Except String ConvertResponse :=
  if respOk r then Except.ok (parseJson r.body)
  else Except.error (if r.body = "" then "Conversion failed" else r.body)

/-- Claim C7: a successful synchronous `/convert` responds with exactly
`{markdown, assets}` (each asset being `{path, content_type, data_base64}`,
the fields of `ConvertResponse` and `AssetResponse`), and the conversion
bypasses the Job pipeline: the state — in particular the Job record list —
is returned unchanged, so no Job record is created. -/
theorem C7_convert_bypasses_queue
    (conv : List Nat → Except ConverterError (String × List AssetResponse))
    (st : FNS.PState) (file : List Nat) :
    ((convertEndpoint conv st file).2 = st) ∧
    ((convertEndpoint conv st file).2.jobs = st.jobs) ∧
    (∀ md assets, conv file = Except.ok (md, assets) →
      (convertEndpoint conv st file).1 =
        Except.ok { markdown := md, assets := assets }) := by
  refine ⟨?_, ?_, ?_⟩
  · cases h : conv file with
    | ok r => simp [convertEndpoint, h]
    | error e => simp [convertEndpoint, h]
  · cases h : conv file with
    | ok r => simp [convertEndpoint, h]
    | error e => simp [convertEndpoint, h]
  · intro md assets h
    simp [convertEndpoint, h]

/-- Witness for C7: a converter yielding markdown `"# hi"` with no assets
produces exactly that response object. -/
theorem C7_convert_bypasses_queue_witness :
    (convertEndpoint (fun _ => Except.ok ("# hi", [])) FNS.initState []).1 =
      Except.ok { markdown := "# hi", assets := [] } :=
  (C7_convert_bypasses_queue (fun _ => Except.ok ("# hi", []))
    FNS.initState []).2.2 "# hi" [] rfl

/-- Claim C8: Converter errors on the synchronous path surface immediately:
the proxy route (when configured) returns the backend's status and body
unchanged, and `convertFile` throws an `Error` iff the response status is
not ok — carrying the response body when that body is non-empty — and
returns the parsed JSON otherwise. -/
theorem C8_convert_error_surfaced (b : String)
    (backend : String → HttpResponse) (form : String)
    (parse : String → ConvertResponse) (r : HttpResponse) :
    ((convertRoutePOST (some b) backend form).status = (backend form).status ∧
     (convertRoutePOST (some b) backend form).body = (backend form).body) ∧
    ((∃ e, convertFile parse r = Except.error e) ↔ respOk r = false) ∧
    (respOk r = false → r.body ≠ "" →
      convertFile parse r = Except.error r.body) ∧
    (respOk r = true → convertFile parse r = Except.ok (parse r.body)) := by
  refine ⟨⟨rfl, rfl⟩, ⟨?_, ?_⟩, ?_, ?_⟩
  · intro ⟨e, he⟩
    cases hok : respOk r with
    | true => rw [convertFile, if_pos hok] at he; cases he
    | false => rfl
  · intro hok
    refine ⟨if r.body = "" then "Conversion failed" else r.body, ?_⟩
    rw [convertFile, if_neg (by rw [hok]; exact Bool.false_ne_true)]
  · intro hok hb
    rw [convertFile, if_neg (by rw [hok]; exact Bool.false_ne_true),
      if_neg hb]
  · intro hok
    rw [convertFile, if_pos hok]

/-- Witness for C8: a 500 response with body `"UnsupportedFormatError"`
makes `convertFile` throw exactly that body. -/
theorem C8_convert_error_surfaced_witness :
    convertFile (fun _ => { markdown := "", assets := [] })
      { status := 500, body := "UnsupportedFormatError", contentType := none } =
      Except.error "UnsupportedFormatError" :=
  (C8_convert_error_surfaced "http://localhost:8000"
    (fun _ => { status := 500, body := "UnsupportedFormatError", contentType := none })
    "" (fun _ => { markdown := "", assets := [] })
    { status := 500, body := "UnsupportedFormatError", contentType := none }).2.2.1
    rfl (by decide)

/-! ### `handleUpload` of `materialToMD/frontend/app/layout.tsx` -/

/-- JavaScript truthiness for an optional string field: `undefined` and
`""` are falsy. -/
def truthy : Option String → Bool
  | none => false
  | some s => !s.isEmpty

/-- JavaScript `a || b` over optional string values. -/
def jsOr (a b : Option String) : Option String :=
  if truthy a then a else b

/-- The response body fields `handleUpload` probes, in order:
`data.content || data.markdown || data.text || data.result`. -/
structure ConvertData where
  content : Option String
  markdown : Option String
  text : Option String
  result : Option String
deriving DecidableEq, Repr

def pickContent (d : ConvertData) : Option String :=
  jsOr (jsOr (jsOr d.content d.markdown) d.text) d.result

/-- Embeds `handleUpload` of `materialToMD/frontend/app/layout.tsx`, after the
fetch: on a non-ok response it throws `errData.detail || 'Conversion
failed'`; on an ok response it computes `content` by the `||` chain and
throws `"Received empty content from backend"` when the result is falsy,
otherwise it renders the content. -/
def handleUpload (ok : Bool) (detail : Option String) (d : ConvertData) :
    Except String String :=
  if ok = false then
    Except.error ((jsOr detail (some "Conversion failed")).getD "")
  else if truthy (pickContent d) = false then
    Except.error "Received empty content from backend"
  else
    Except.ok ((pickContent d).getD "")

/-- Claim C10: an HTTP-200 response whose `content`, `markdown`, `text`
and `result` fields are all absent or empty strings is treated as a
failure: `handleUpload` raises `"Received empty content from backend"`
instead of rendering an empty document. -/
theorem C10_empty_content_failure (detail : Option String) (d : ConvertData)
    (h1 : truthy d.content = false) (h2 : truthy d.markdown = false)
    (h3 : truthy d.text = false) (h4 : truthy d.result = false) :
    handleUpload true detail d =
      Except.error "Received empty content from backend" := by
  have hpick : truthy (pickContent d) = false := by
    rw [pickContent, jsOr, jsOr, jsOr]
    rw [h1]
    simp only [Bool.false_eq_true, if_false]
    rw [h2]
    simp only [Bool.false_eq_true, if_false]
    rw [h3]
    simp only [Bool.false_eq_true, if_false]
    exact h4
  rw [handleUpload]
  simp only [Bool.true_eq_false, if_false, hpick, if_true]

/-- Witness for C10: a 200 response carrying `markdown: ""` and no other
content field yields the empty-content error. -/
theorem C10_empty_content_failure_witness :
    handleUpload true none
      { content := none, markdown := some "", text := none, result := none } =
      Except.error "Received empty content from backend" :=
  C10_empty_content_failure none
    { content := none, markdown := some "", text := none, result := none }
    rfl rfl rfl rfl

end Web

namespace Fmt

/-! ### `cleanMarkdown` of the Material → Markdown page

Embeds the smart formatter of `MaterialToMdPage`
(`cleanMarkdown`, lines 21-54 of the page component) character by
character over `List Char`. -/

/-- U+000B, the PowerPoint vertical tab. -/
def vtab : Char := Char.ofNat 11

/-- The JavaScript global replace `replace(/<[^>]+>/g, "")` of
`cleanMarkdown` step 1, as a left-to-right scan: `none` mode copies
characters until a `<`; `some buf` mode buffers the characters seen since
that `<` (most recent first).  A `>` after a non-empty buffer completes a
match and the buffered region is dropped; a `>` directly after the `<`
fails the match (the regex needs at least one non-`>` character), so both
characters stay literal; at the end of the input an open buffer is flushed
literally, as without a closing `>` no position inside it can start a
match. -/
def stripGo : Option (List Char) → List Char → List Char
  | none, [] => []
  | none, c :: cs =>
    if c = '<' then stripGo (some []) cs else c :: stripGo none cs
  | some buf, [] => '<' :: buf.reverse
  | some buf, c :: cs =>
    if c = '>' then
      if buf.isEmpty then '<' :: '>' :: stripGo none cs
      else stripGo none cs
    else stripGo (some (c :: buf)) cs

def stripTags (l : List Char) : List Char := stripGo none l

/-- Step 2 of `cleanMarkdown`: `replace(/\u000b/g, "\n")`. -/
def vtabToNl (c : Char) : Char := if c = vtab then '\n' else c

/-- Step 3 of `cleanMarkdown`: the global replace `replace(/‹#›/g, "")`:
leftmost, non-overlapping, resuming right after each removed
occurrence. -/
def removeArtifact : List Char → List Char
  | [] => []
  | [c] => [c]
  | [c, d] => [c, d]
  | c :: d :: e :: rest =>
    if c = '‹' ∧ d = '#' ∧ e = '›' then removeArtifact rest
    else c :: removeArtifact (d :: e :: rest)

/-- Embeds `String.prototype.split('\n')`. -/
def splitLines : List Char → List (List Char)
  | [] => [[]]
  | c :: cs =>
    if c = '\n' then [] :: splitLines cs
    else
      match splitLines cs with
      | [] => [[c]]
      | l :: ls => (c :: l) :: ls

/-- The ECMAScript `WhiteSpace` and `LineTerminator` characters removed by
`String.prototype.trim`. -/
def jsWhitespace (c : Char) : Bool :=
  c == '\t' || c == '\n' || c == vtab || c == Char.ofNat 12 ||
  c == '\r' || c == ' ' || c == Char.ofNat 0xA0 || c == Char.ofNat 0x1680 ||
  (0x2000 ≤ c.toNat && c.toNat ≤ 0x200A) || c == Char.ofNat 0x2028 ||
  c == Char.ofNat 0x2029 || c == Char.ofNat 0x202F ||
  c == Char.ofNat 0x205F || c == Char.ofNat 0x3000 || c == Char.ofNat 0xFEFF

/-- Embeds `String.prototype.trim`. -/
def jsTrim (l : List Char) : List Char :=
  ((l.dropWhile jsWhitespace).reverse.dropWhile jsWhitespace).reverse

/-- Embeds `trimmed.match(/^Slide \d+$/i)` as a Boolean. -/
def isSlideLine : List Char → Bool
  | c1 :: c2 :: c3 :: c4 :: c5 :: c6 :: ds =>
    (c1 == 'S' || c1 == 's') && (c2 == 'L' || c2 == 'l') &&
    (c3 == 'I' || c3 == 'i') && (c4 == 'D' || c4 == 'd') &&
    (c5 == 'E' || c5 == 'e') && c6 == ' ' &&
    !ds.isEmpty && ds.all Char.isDigit
  | _ => false

/-- The body of `lines.map((line, index) => ...)` (step 4 of
`cleanMarkdown`); `prev` is `lines[index - 1]` and `jsTrim line` is the
`trimmed` constant of the source. -/
def formatLine (prev : Option (List Char)) (line : List Char) : List Char :=
  if (jsTrim line).isEmpty then []
  else if isSlideLine (jsTrim line) then
    '\n' :: '#' :: '#' :: ' ' :: (jsTrim line ++ ['\n'])
  else
    match prev with
    | some pl =>
      if !(jsTrim pl).isEmpty && isSlideLine (jsTrim pl) then
        '#' :: '#' :: '#' :: ' ' :: (jsTrim line ++ ['\n'])
      else '*' :: ' ' :: jsTrim line
    | none => '*' :: ' ' :: jsTrim line

def formatLines : Option (List Char) → List (List Char) → List (List Char)
  | _, [] => []
  | prev, l :: ls => formatLine prev l :: formatLines (some l) ls

/-- Embeds `Array.prototype.join('\n')`. -/
def joinLines : List (List Char) → List Char
  | [] => []
  | [l] => l
  | l :: l2 :: ls => l ++ '\n' :: joinLines (l2 :: ls)

/-- Embeds `cleanMarkdown` of the Material → Markdown page: empty input short
circuit, strip HTML tags, turn vertical tabs into newlines, remove `‹#›`
artifacts, then apply the per-line smart formatting. -/
def cleanMarkdown (rawText : String) : String :=
  if rawText.isEmpty then "" else
  String.mk (joinLines (formatLines none (splitLines
    (removeArtifact ((stripTags rawText.toList).map vtabToNl)))))

/-- Is `'>'` present? -/
def hasGt : List Char → Bool
  | [] => false
  | c :: cs => c == '>' || hasGt cs

/-- Can an HTML-tag match `<[^>]+>` close over this suffix (one or more
non-`>` characters followed eventually by a `>`)? -/
def tagClose : List Char → Bool
  | [] => false
  | c :: cs => c != '>' && hasGt cs

/-- Does the list contain a substring matching the `cleanMarkdown` tag
regex `<[^>]+>`? -/
def hasTag : List Char → Bool
  | [] => false
  | c :: cs => (c == '<' && tagClose cs) || hasTag cs

/-- Does the list start with `>`? -/
def headGt : List Char → Bool
  | [] => false
  | c :: _ => c == '>'

/-- Tag-safety: every `<` is immediately followed by `>` or sees no `>`
anywhere to its right.  This implies `hasTag = false` and is preserved by
all the later `cleanMarkdown` stages. -/
def good : List Char → Bool
  | [] => true
  | c :: cs => (if c = '<' then headGt cs || !hasGt cs else true) && good cs

/-- A dangling `<`: one not immediately followed by `>`. -/
def dang : List Char → Bool
  | [] => false
  | c :: cs => (decide (c = '<') && !headGt cs) || dang cs

/-- Substring occurrence test. -/
def containsSeq (pat : List Char) : List Char → Bool
  | [] => pat.isEmpty
  | c :: cs => pat.isPrefixOf (c :: cs) || containsSeq pat cs

/-! ### Tag-safety lemmas -/

theorem hasGt_append (a b : List Char) :
    hasGt (a ++ b) = (hasGt a || hasGt b) := by
  induction a with
  | nil => rfl
  | cons c cs ih =>
    show (c == '>' || hasGt (cs ++ b)) = ((c == '>' || hasGt cs) || hasGt b)
    rw [ih, Bool.or_assoc]

theorem hasGt_iff {l : List Char} : hasGt l = true ↔ '>' ∈ l := by
  induction l with
  | nil => simp [hasGt]
  | cons c cs ih =>
    simp only [hasGt, Bool.or_eq_true, beq_iff_eq, List.mem_cons, ih]
    constructor
    · rintro (h | h)
      · exact Or.inl h.symm
      · exact Or.inr h
    · rintro (h | h)
      · exact Or.inl h.symm
      · exact Or.inr h

theorem hasGt_false_cons {c : Char} {cs : List Char}
    (h : hasGt (c :: cs) = false) : c ≠ '>' ∧ hasGt cs = false := by
  rw [hasGt, Bool.or_eq_false_iff] at h
  exact ⟨fun he => by rw [he] at h; simp at h, h.2⟩

theorem good_cons (c : Char) (cs : List Char) :
    good (c :: cs) =
      ((if c = '<' then headGt cs || !hasGt cs else true) && good cs) := rfl

theorem dang_cons (c : Char) (cs : List Char) :
    dang (c :: cs) = ((decide (c = '<') && !headGt cs) || dang cs) := rfl

theorem good_cons_ne {c : Char} {cs : List Char} (h : c ≠ '<') :
    good (c :: cs) = good cs := by
  rw [good_cons, if_neg h, Bool.true_and]

theorem dang_cons_ne {c : Char} {cs : List Char} (h : c ≠ '<') :
    dang (c :: cs) = dang cs := by
  rw [dang_cons, decide_eq_false h, Bool.false_and, Bool.false_or]

theorem good_of_hasGt_false {l : List Char} (h : hasGt l = false) :
    good l = true := by
  induction l with
  | nil => rfl
  | cons c cs ih =>
    rcases hasGt_false_cons h with ⟨-, hcs⟩
    rw [good_cons, ih hcs, Bool.and_true]
    by_cases hc : c = '<'
    · rw [if_pos hc, hcs]
      simp
    · rw [if_neg hc]

theorem hasTag_false_of_good {l : List Char} (h : good l = true) :
    hasTag l = false := by
  induction l with
  | nil => rfl
  | cons c cs ih =>
    rw [good_cons, Bool.and_eq_true] at h
    rw [hasTag, Bool.or_eq_false_iff]
    refine ⟨?_, ih h.2⟩
    by_cases hc : c = '<'
    · rw [if_pos hc] at h
      have h1 := h.1
      rw [Bool.or_eq_true] at h1
      rcases h1 with hh | hh
      · cases cs with
        | nil => simp [tagClose]
        | cons d ds =>
          rw [headGt] at hh
          rw [tagClose]
          simp only [beq_iff_eq] at hh
          simp [hh]
      · have hgt : hasGt cs = false := by
          cases hx : hasGt cs
          · rfl
          · rw [hx] at hh; cases hh
        cases cs with
        | nil => simp [tagClose]
        | cons d ds =>
          rw [tagClose]
          rcases hasGt_false_cons hgt with ⟨-, hds⟩
          simp [hds]
    · rw [beq_eq_false_iff_ne.mpr hc]
      simp

theorem good_tail {c : Char} {cs : List Char} (h : good (c :: cs) = true) :
    good cs = true := by
  rw [good_cons, Bool.and_eq_true] at h
  exact h.2

theorem dang_of_tail {c : Char} {cs : List Char} (h : dang cs = true) :
    dang (c :: cs) = true := by
  rw [dang_cons, h, Bool.or_true]

theorem headGt_append (a b : List Char) :
    headGt (a ++ b) = (if a.isEmpty then headGt b else headGt a) := by
  cases a with
  | nil => rfl
  | cons c cs => rfl

/-- Appending is tag-safe when the left part is safe, the right part is
safe, and a dangling `<` on the left forces the right part `>`-free. -/
theorem good_append {a b : List Char} (ha : good a = true)
    (hb : good b = true) (hd : dang a = true → hasGt b = false) :
    good (a ++ b) = true := by
  induction a with
  | nil => exact hb
  | cons c a' ih =>
    rw [good_cons, Bool.and_eq_true] at ha
    have hd' : dang a' = true → hasGt b = false := fun h =>
      hd (dang_of_tail h)
    rw [List.cons_append, good_cons, ih ha.2 hd', Bool.and_true]
    by_cases hc : c = '<'
    · rw [if_pos hc]
      have ha1 := ha.1
      rw [if_pos hc, Bool.or_eq_true] at ha1
      rcases ha1 with hh | hh
      · cases a' with
        | nil => cases hb' : headGt b with
          | true => simp [headGt_append, hb']
          | false => rw [headGt] at hh; cases hh
        | cons d ds =>
          rw [headGt_append]
          simp only [List.isEmpty_cons, if_false]
          rw [hh]
          simp
      · have hga : hasGt a' = false := by
          cases hx : hasGt a'
          · rfl
          · rw [hx] at hh; cases hh
        have hgb : hasGt b = false := by
          refine hd ?_
          have hnh : headGt a' = false := by
            cases a' with
            | nil => rfl
            | cons d ds =>
              cases hdd : (d == '>') with
              | false => exact hdd
              | true =>
                exfalso
                have hx : hasGt (d :: ds) = true := by
                  rw [hasGt, hdd, Bool.true_or]
                rw [hx] at hga
                cases hga
          rw [dang_cons, decide_eq_true hc, hnh]
          simp
        rw [hasGt_append, hga, hgb]
        simp
    · rw [if_neg hc]

/-! ### Stage 1: tag stripping establishes tag-safety -/

theorem hasGt_reverse_false {l : List Char} (h : hasGt l = false) :
    hasGt l.reverse = false := by
  cases hx : hasGt l.reverse with
  | false => rfl
  | true =>
    exfalso
    have hm := hasGt_iff.mp hx
    rw [List.mem_reverse] at hm
    rw [hasGt_iff.mpr hm] at h
    cases h

theorem good_stripGo : ∀ (l : List Char) (mode : Option (List Char)),
    (∀ buf, mode = some buf → hasGt buf = false) →
    good (stripGo mode l) = true := by
  intro l
  induction l with
  | nil =>
    intro mode hm
    cases mode with
    | none => rfl
    | some buf =>
      have hw : hasGt buf.reverse = false := hasGt_reverse_false (hm buf rfl)
      show good ('<' :: buf.reverse) = true
      rw [good_cons, if_pos rfl, hw, good_of_hasGt_false hw]
      simp
  | cons c cs ih =>
    intro mode hm
    cases mode with
    | none =>
      show good (if c = '<' then stripGo (some []) cs
        else c :: stripGo none cs) = true
      by_cases hc : c = '<'
      · rw [if_pos hc]
        refine ih (some []) ?_
        intro b hb
        injection hb with hb
        rw [← hb]
        rfl
      · rw [if_neg hc, good_cons_ne hc]
        exact ih none (fun _ h => by cases h)
    | some buf =>
      show good (if c = '>' then
        (if buf.isEmpty then '<' :: '>' :: stripGo none cs
         else stripGo none cs) else stripGo (some (c :: buf)) cs) = true
      by_cases hc : c = '>'
      · rw [if_pos hc]
        by_cases hbe : buf.isEmpty = true
        · rw [if_pos hbe]
          have hrest := ih none (fun _ h => by cases h)
          rw [good_cons, if_pos rfl]
          have h1 : headGt ('>' :: stripGo none cs) = true := rfl
          rw [h1, Bool.true_or, Bool.true_and,
            good_cons_ne (by decide : ('>' : Char) ≠ '<')]
          exact hrest
        · rw [if_neg hbe]
          exact ih none (fun _ h => by cases h)
      · rw [if_neg hc]
        refine ih (some (c :: buf)) ?_
        intro b hb
        injection hb with hb
        rw [← hb, hasGt, hm buf rfl, beq_eq_false_iff_ne.mpr hc]
        rfl

/-! ### Stage 2: vertical-tab replacement preserves tag-safety -/

theorem vtabToNl_lt {c : Char} : vtabToNl c = '<' ↔ c = '<' := by
  by_cases hv : c = vtab
  · subst hv
    rw [vtabToNl, if_pos rfl]
    constructor
    · intro h; exact absurd h (by decide)
    · intro h; exact absurd h (by decide)
  · rw [vtabToNl, if_neg hv]

theorem beq_gt_vtabToNl (c : Char) : (vtabToNl c == '>') = (c == '>') := by
  by_cases hv : c = vtab
  · subst hv
    rw [vtabToNl, if_pos rfl]
    decide
  · rw [vtabToNl, if_neg hv]

theorem hasGt_map_vtabToNl (l : List Char) :
    hasGt (l.map vtabToNl) = hasGt l := by
  induction l with
  | nil => rfl
  | cons c cs ih =>
    rw [List.map_cons, hasGt, hasGt, beq_gt_vtabToNl, ih]

theorem good_map_vtabToNl {l : List Char} (h : good l = true) :
    good (l.map vtabToNl) = true := by
  induction l with
  | nil => rfl
  | cons c cs ih =>
    rw [good_cons, Bool.and_eq_true] at h
    rw [List.map_cons, good_cons, ih h.2, Bool.and_true]
    by_cases hc : vtabToNl c = '<'
    · rw [if_pos hc]
      have h1 := h.1
      rw [if_pos (vtabToNl_lt.mp hc), Bool.or_eq_true] at h1
      rcases h1 with hh | hh
      · cases cs with
        | nil => cases hh
        | cons d ds =>
          have hd : (d == '>') = true := hh
          rw [List.map_cons]
          have hh2 : headGt (vtabToNl d :: ds.map vtabToNl) = true := by
            show (vtabToNl d == '>') = true
            rw [beq_gt_vtabToNl]
            exact hd
          rw [hh2, Bool.true_or]
      · have hgt : hasGt cs = false := by
          cases hx : hasGt cs
          · rfl
          · rw [hx] at hh; cases hh
        have hgt2 : hasGt (cs.map vtabToNl) = false := by
          rw [hasGt_map_vtabToNl, hgt]
        rw [hgt2]
        simp
    · rw [if_neg hc]

/-! ### Stage 3: artifact removal preserves tag-safety -/

theorem removeArtifact_cons_ne {c : Char} (cs : List Char) (h : c ≠ '‹') :
    removeArtifact (c :: cs) = c :: removeArtifact cs := by
  cases cs with
  | nil => rfl
  | cons d cs' =>
    cases cs' with
    | nil => rfl
    | cons e rest =>
      have he : removeArtifact (c :: d :: e :: rest) =
          if c = '‹' ∧ d = '#' ∧ e = '›' then removeArtifact rest
          else c :: removeArtifact (d :: e :: rest) := rfl
      rw [he, if_neg (fun hand => h hand.1)]

theorem mem_removeArtifact : ∀ (l : List Char) (c : Char),
    c ∈ removeArtifact l → c ∈ l
  | [], _, hc => hc
  | [_], _, hc => hc
  | [_, _], _, hc => hc
  | a :: b :: d :: rest, c, hc => by
    have he : removeArtifact (a :: b :: d :: rest) =
        if a = '‹' ∧ b = '#' ∧ d = '›' then removeArtifact rest
        else a :: removeArtifact (b :: d :: rest) := rfl
    rw [he] at hc
    by_cases hart : a = '‹' ∧ b = '#' ∧ d = '›'
    · rw [if_pos hart] at hc
      have hmem := mem_removeArtifact rest c hc
      exact List.mem_cons_of_mem _ (List.mem_cons_of_mem _
        (List.mem_cons_of_mem _ hmem))
    · rw [if_neg hart] at hc
      rcases List.mem_cons.mp hc with h1 | h2
      · rw [h1]; exact List.mem_cons_self _ _
      · exact List.mem_cons_of_mem _ (mem_removeArtifact (b :: d :: rest) c h2)

theorem hasGt_removeArtifact {l : List Char} (h : hasGt l = false) :
    hasGt (removeArtifact l) = false := by
  cases hx : hasGt (removeArtifact l) with
  | false => rfl
  | true =>
    exfalso
    have hmem := mem_removeArtifact l '>' (hasGt_iff.mp hx)
    rw [hasGt_iff.mpr hmem] at h
    cases h

theorem good_removeArtifact : ∀ (l : List Char), good l = true →
    good (removeArtifact l) = true
  | [], h => h
  | [_], h => h
  | [_, _], h => h
  | a :: b :: d :: rest, h => by
    have he : removeArtifact (a :: b :: d :: rest) =
        if a = '‹' ∧ b = '#' ∧ d = '›' then removeArtifact rest
        else a :: removeArtifact (b :: d :: rest) := rfl
    rw [he]
    by_cases hart : a = '‹' ∧ b = '#' ∧ d = '›'
    · rw [if_pos hart]
      exact good_removeArtifact rest (good_tail (good_tail (good_tail h)))
    · rw [if_neg hart]
      have hrec := good_removeArtifact (b :: d :: rest) (good_tail h)
      rw [good_cons, hrec, Bool.and_true]
      by_cases ha : a = '<'
      · rw [if_pos ha]
        rw [good_cons, Bool.and_eq_true] at h
        have h1 := h.1
        rw [if_pos ha, Bool.or_eq_true] at h1
        rcases h1 with hh | hh
        · have hb : (b == '>') = true := hh
          have hbne : b ≠ '‹' := by
            rw [beq_iff_eq.mp hb]; decide
          rw [removeArtifact_cons_ne _ hbne]
          have hh2 : headGt (b :: removeArtifact (d :: rest)) = true := hb
          rw [hh2, Bool.true_or]
        · have hgt : hasGt (b :: d :: rest) = false := by
            cases hx : hasGt (b :: d :: rest)
            · rfl
            · rw [hx] at hh; cases hh
          rw [hasGt_removeArtifact hgt]
          simp
      · rw [if_neg ha]

/-! ### Stage 4: line splitting, trimming, formatting and joining -/

/-- All lines `>`-free. -/
def allNgt (L : List (List Char)) : Bool := L.all (fun m => !hasGt m)

/-- Line-wise tag-safety: each line is safe, and from the first line with a
dangling `<` on, no later line contains a `>`. -/
def goodLines : List (List Char) → Bool
  | [] => true
  | l :: ls => good l && (if dang l then allNgt ls else goodLines ls)

theorem splitLines_cons (c : Char) (cs : List Char) :
    splitLines (c :: cs) =
      if c = '\n' then [] :: splitLines cs
      else
        match splitLines cs with
        | [] => [[c]]
        | l :: ls => (c :: l) :: ls := rfl

theorem mem_splitLines : ∀ (x : List Char) (m : List Char),
    m ∈ splitLines x → ∀ c ∈ m, c ∈ x := by
  intro x
  induction x with
  | nil =>
    intro m hm c hc
    rw [List.mem_singleton.mp hm] at hc
    cases hc
  | cons c0 cs ih =>
    intro m hm c hc
    rw [splitLines_cons] at hm
    by_cases h0 : c0 = '\n'
    · rw [if_pos h0] at hm
      rcases List.mem_cons.mp hm with rfl | hm2
      · cases hc
      · exact List.mem_cons_of_mem _ (ih m hm2 c hc)
    · rw [if_neg h0] at hm
      rcases hsp : splitLines cs with _ | ⟨l, ls⟩
      · rw [hsp] at hm
        rw [List.mem_singleton.mp hm] at hc
        rw [List.mem_singleton.mp hc]
        exact List.mem_cons_self _ _
      · rw [hsp] at hm
        rcases List.mem_cons.mp hm with rfl | hm2
        · rcases List.mem_cons.mp hc with rfl | hc2
          · exact List.mem_cons_self _ _
          · have hl : l ∈ splitLines cs := by
              rw [hsp]; exact List.mem_cons_self _ _
            exact List.mem_cons_of_mem _ (ih l hl c hc2)
        · have hls : m ∈ splitLines cs := by
            rw [hsp]; exact List.mem_cons_of_mem _ hm2
          exact List.mem_cons_of_mem _ (ih m hls c hc)

theorem hasGt_of_mem_splitLines {x m : List Char} (hgt : hasGt x = false)
    (hm : m ∈ splitLines x) : hasGt m = false := by
  cases hx : hasGt m with
  | false => rfl
  | true =>
    exfalso
    have := mem_splitLines x m hm '>' (hasGt_iff.mp hx)
    rw [hasGt_iff.mpr this] at hgt
    cases hgt

theorem goodLines_of_allNgt : ∀ (L : List (List Char)),
    (∀ m ∈ L, hasGt m = false) → goodLines L = true := by
  intro L
  induction L with
  | nil => intro _; rfl
  | cons l ls ih =>
    intro h
    have hl := h l (List.mem_cons_self _ _)
    rw [goodLines, good_of_hasGt_false hl, Bool.true_and]
    by_cases hd : dang l = true
    · rw [if_pos hd, allNgt, List.all_eq_true]
      intro m hm
      rw [h m (List.mem_cons_of_mem _ hm)]
      rfl
    · rw [if_neg hd]
      exact ih (fun m hm => h m (List.mem_cons_of_mem _ hm))

theorem goodLines_splitLines : ∀ (x : List Char), good x = true →
    goodLines (splitLines x) = true := by
  intro x
  induction x with
  | nil => intro _; rfl
  | cons c cs ih =>
    intro h
    have hcs := good_tail h
    rw [splitLines_cons]
    by_cases h0 : c = '\n'
    · rw [if_pos h0]
      exact ih hcs
    · rw [if_neg h0]
      rcases hsp : splitLines cs with _ | ⟨l, ls⟩
      · rw [goodLines]
        have hg : good [c] = true := by
          rw [good_cons]
          by_cases hc : c = '<'
          · rw [if_pos hc]; rfl
          · rw [if_neg hc]; rfl
        rw [hg, Bool.true_and]
        by_cases hd : dang [c] = true
        · rw [if_pos hd]; rfl
        · rw [if_neg hd]; rfl
      · have ihg : goodLines (l :: ls) = true := by
          rw [← hsp]; exact ih hcs
        rw [goodLines, Bool.and_eq_true] at ihg
        rw [goodLines]
        by_cases hc : c = '<'
        · rw [good_cons, Bool.and_eq_true] at h
          have h1 := h.1
          rw [if_pos hc, Bool.or_eq_true] at h1
          rcases h1 with hh | hh
          · cases cs with
            | nil => cases hh
            | cons d cs' =>
              have hd : (d == '>') = true := hh
              have hdne : d ≠ '\n' := by
                rw [beq_iff_eq.mp hd]; decide
              rw [splitLines_cons, if_neg hdne] at hsp
              have hlh : headGt l = true := by
                rcases hsp2 : splitLines cs' with _ | ⟨l', ls'⟩
                · rw [hsp2] at hsp
                  injection hsp with hl hls
                  rw [← hl]
                  exact hd
                · rw [hsp2] at hsp
                  injection hsp with hl hls
                  rw [← hl]
                  exact hd
              have hdang : dang (c :: l) = dang l := by
                rw [dang_cons, decide_eq_true hc, hlh]
                rfl
              rw [good_cons, if_pos hc, hlh, Bool.true_or, Bool.true_and,
                ihg.1, Bool.true_and, hdang]
              exact ihg.2
          · have hgt : hasGt cs = false := by
              cases hx : hasGt cs
              · rfl
              · rw [hx] at hh; cases hh
            have hgl : hasGt l = false :=
              hasGt_of_mem_splitLines hgt
                (by rw [hsp]; exact List.mem_cons_self _ _)
            have hng : ∀ m ∈ ls, hasGt m = false := fun m hm =>
              hasGt_of_mem_splitLines hgt
                (by rw [hsp]; exact List.mem_cons_of_mem _ hm)
            have hgcl : good (c :: l) = true := by
              rw [good_cons, if_pos hc, hgl, ihg.1]
              simp
            rw [hgcl, Bool.true_and]
            by_cases hd2 : dang (c :: l) = true
            · rw [if_pos hd2, allNgt, List.all_eq_true]
              intro m hm
              rw [hng m hm]
              rfl
            · rw [if_neg hd2]
              exact goodLines_of_allNgt ls hng
        · rw [good_cons_ne hc, ihg.1, Bool.true_and]
          have hdang : dang (c :: l) = dang l := dang_cons_ne hc
          rw [hdang]
          exact ihg.2

/-! ### Trimming preserves tag-safety -/

theorem ws_ne_lt_gt {c : Char} (h : jsWhitespace c = true) :
    c ≠ '<' ∧ c ≠ '>' := by
  constructor
  · intro he; rw [he] at h; exact absurd h (by decide)
  · intro he; rw [he] at h; exact absurd h (by decide)

theorem good_dropWhile {l : List Char} (h : good l = true) :
    good (l.dropWhile jsWhitespace) = true := by
  induction l with
  | nil => exact h
  | cons c cs ih =>
    rw [List.dropWhile_cons]
    by_cases hw : jsWhitespace c = true
    · rw [if_pos hw]; exact ih (good_tail h)
    · rw [if_neg hw]; exact h

theorem good_of_append_ws : ∀ (a w : List Char),
    (∀ c ∈ w, c ≠ '<' ∧ c ≠ '>') → good (a ++ w) = true →
    good a = true := by
  intro a
  induction a with
  | nil => intro w _ _; rfl
  | cons c a' ih =>
    intro w hw h
    rw [List.cons_append] at h
    have ha' := ih w hw (good_tail h)
    rw [good_cons, ha', Bool.and_true]
    by_cases hc : c = '<'
    · rw [if_pos hc]
      rw [good_cons, Bool.and_eq_true] at h
      have h1 := h.1
      rw [if_pos hc, Bool.or_eq_true] at h1
      rcases h1 with hh | hh
      · cases a' with
        | nil =>
          exfalso
          cases w with
          | nil => cases hh
          | cons d ds =>
            have hd : (d == '>') = true := hh
            exact (hw d (List.mem_cons_self _ _)).2 (beq_iff_eq.mp hd)
        | cons d ds =>
          have hd2 : headGt (d :: ds) = true := hh
          rw [hd2, Bool.true_or]
      · have hgt : hasGt (a' ++ w) = false := by
          cases hx : hasGt (a' ++ w)
          · rfl
          · rw [hx] at hh; cases hh
        rw [hasGt_append, Bool.or_eq_false_iff] at hgt
        rw [hgt.1]
        simp
    · rw [if_neg hc]

theorem jsTrim_append (l : List Char) :
    jsTrim l ++
      ((l.dropWhile jsWhitespace).reverse.takeWhile jsWhitespace).reverse =
      l.dropWhile jsWhitespace := by
  rw [jsTrim, ← List.reverse_append, List.takeWhile_append_dropWhile,
    List.reverse_reverse]

theorem good_jsTrim {l : List Char} (h : good l = true) :
    good (jsTrim l) = true := by
  refine good_of_append_ws (jsTrim l)
    ((l.dropWhile jsWhitespace).reverse.takeWhile jsWhitespace).reverse
    ?_ ?_
  · intro c hc
    rw [List.mem_reverse] at hc
    exact ws_ne_lt_gt (List.mem_takeWhile_imp hc)
  · rw [jsTrim_append]
    exact good_dropWhile h

theorem dang_dropWhile {l : List Char}
    (h : dang (l.dropWhile jsWhitespace) = true) : dang l = true := by
  induction l with
  | nil => exact h
  | cons c cs ih =>
    rw [List.dropWhile_cons] at h
    by_cases hw : jsWhitespace c = true
    · rw [if_pos hw] at h
      exact dang_of_tail (ih h)
    · rw [if_neg hw] at h
      exact h

theorem dang_append_ws {a w : List Char} (hw : ∀ c ∈ w, c ≠ '>')
    (h : dang a = true) : dang (a ++ w) = true := by
  induction a with
  | nil => cases h
  | cons c a' ih =>
    rw [dang_cons, Bool.or_eq_true] at h
    rw [List.cons_append, dang_cons, Bool.or_eq_true]
    rcases h with hh | hh
    · left
      rw [Bool.and_eq_true] at hh
      rw [Bool.and_eq_true]
      refine ⟨hh.1, ?_⟩
      cases a' with
      | nil =>
        cases w with
        | nil => rfl
        | cons d ds =>
          show (!headGt (d :: ds)) = true
          show (!(d == '>')) = true
          rw [beq_eq_false_iff_ne.mpr (hw d (List.mem_cons_self _ _))]
          rfl
      | cons d ds => exact hh.2
    · right; exact ih hh

theorem dang_jsTrim {l : List Char} (h : dang (jsTrim l) = true) :
    dang l = true := by
  refine dang_dropWhile ?_
  rw [← jsTrim_append l]
  refine dang_append_ws ?_ h
  intro c hc
  rw [List.mem_reverse] at hc
  exact (ws_ne_lt_gt (List.mem_takeWhile_imp hc)).2

theorem mem_jsTrim {l : List Char} {c : Char} (h : c ∈ jsTrim l) : c ∈ l := by
  rw [jsTrim, List.mem_reverse] at h
  have h2 := List.Sublist.mem h (List.dropWhile_sublist _)
  rw [List.mem_reverse] at h2
  exact List.Sublist.mem h2 (List.dropWhile_sublist _)

theorem hasGt_jsTrim {l : List Char} (h : hasGt l = false) :
    hasGt (jsTrim l) = false := by
  cases hx : hasGt (jsTrim l) with
  | false => rfl
  | true =>
    exfalso
    have := mem_jsTrim (hasGt_iff.mp hx)
    rw [hasGt_iff.mpr this] at h
    cases h

/-! ### Per-line formatting preserves tag-safety -/

theorem good_formatLine (prev : Option (List Char)) (l : List Char)
    (h : good (jsTrim l) = true) : good (formatLine prev l) = true := by
  rw [formatLine.eq_def]
  by_cases he : (jsTrim l).isEmpty = true
  · rw [if_pos he]; rfl
  · rw [if_neg he]
    by_cases hs : isSlideLine (jsTrim l) = true
    · rw [if_pos hs]
      rw [good_cons_ne (by decide), good_cons_ne (by decide),
        good_cons_ne (by decide), good_cons_ne (by decide)]
      exact good_append h (by decide) (fun _ => by decide)
    · rw [if_neg hs]
      cases prev with
      | none =>
        rw [good_cons_ne (by decide), good_cons_ne (by decide)]
        exact h
      | some pl =>
        show good (if !(jsTrim pl).isEmpty && isSlideLine (jsTrim pl)
            then '#' :: '#' :: '#' :: ' ' :: (jsTrim l ++ ['\n'])
            else '*' :: ' ' :: jsTrim l) = true
        by_cases hp : (!(jsTrim pl).isEmpty && isSlideLine (jsTrim pl)) = true
        · rw [if_pos hp]
          rw [good_cons_ne (by decide), good_cons_ne (by decide),
            good_cons_ne (by decide), good_cons_ne (by decide)]
          exact good_append h (by decide) (fun _ => by decide)
        · rw [if_neg hp]
          rw [good_cons_ne (by decide), good_cons_ne (by decide)]
          exact h

theorem dang_append_nl (a : List Char) : dang (a ++ ['\n']) = dang a := by
  induction a with
  | nil => rfl
  | cons c a' ih =>
    rw [List.cons_append, dang_cons, dang_cons, ih]
    cases a' with
    | nil => rfl
    | cons d ds => rfl

theorem dang_formatLine (prev : Option (List Char)) (l : List Char)
    (h : dang (formatLine prev l) = true) : dang (jsTrim l) = true := by
  rw [formatLine.eq_def] at h
  by_cases he : (jsTrim l).isEmpty = true
  · rw [if_pos he] at h; cases h
  · rw [if_neg he] at h
    by_cases hs : isSlideLine (jsTrim l) = true
    · rw [if_pos hs] at h
      rw [dang_cons_ne (by decide), dang_cons_ne (by decide),
        dang_cons_ne (by decide), dang_cons_ne (by decide),
        dang_append_nl] at h
      exact h
    · rw [if_neg hs] at h
      cases prev with
      | none =>
        rw [dang_cons_ne (by decide), dang_cons_ne (by decide)] at h
        exact h
      | some pl =>
        replace h : dang (if !(jsTrim pl).isEmpty && isSlideLine (jsTrim pl)
            then '#' :: '#' :: '#' :: ' ' :: (jsTrim l ++ ['\n'])
            else '*' :: ' ' :: jsTrim l) = true := h
        by_cases hp : (!(jsTrim pl).isEmpty && isSlideLine (jsTrim pl)) = true
        · rw [if_pos hp] at h
          rw [dang_cons_ne (by decide), dang_cons_ne (by decide),
            dang_cons_ne (by decide), dang_cons_ne (by decide),
            dang_append_nl] at h
          exact h
        · rw [if_neg hp] at h
          rw [dang_cons_ne (by decide), dang_cons_ne (by decide)] at h
          exact h

theorem mem_formatLine {prev : Option (List Char)} {l : List Char} {c : Char}
    (h : c ∈ formatLine prev l) :
    c ∈ jsTrim l ∨ c = '\n' ∨ c = '#' ∨ c = ' ' ∨ c = '*' := by
  rw [formatLine.eq_def] at h
  by_cases he : (jsTrim l).isEmpty = true
  · rw [if_pos he] at h; cases h
  · rw [if_neg he] at h
    by_cases hs : isSlideLine (jsTrim l) = true
    · rw [if_pos hs] at h
      simp only [List.mem_cons, List.mem_append, List.mem_singleton] at h
      tauto
    · rw [if_neg hs] at h
      cases prev with
      | none =>
        simp only [List.mem_cons] at h
        tauto
      | some pl =>
        replace h : c ∈ (if !(jsTrim pl).isEmpty && isSlideLine (jsTrim pl)
            then '#' :: '#' :: '#' :: ' ' :: (jsTrim l ++ ['\n'])
            else '*' :: ' ' :: jsTrim l) := h
        by_cases hp : (!(jsTrim pl).isEmpty && isSlideLine (jsTrim pl)) = true
        · rw [if_pos hp] at h
          simp only [List.mem_cons, List.mem_append, List.mem_singleton] at h
          tauto
        · rw [if_neg hp] at h
          simp only [List.mem_cons] at h
          tauto

theorem hasGt_formatLine (prev : Option (List Char)) (l : List Char)
    (h : hasGt (jsTrim l) = false) :
    hasGt (formatLine prev l) = false := by
  cases hx : hasGt (formatLine prev l) with
  | false => rfl
  | true =>
    exfalso
    rcases mem_formatLine (hasGt_iff.mp hx) with hm | hm | hm | hm | hm
    · rw [hasGt_iff.mpr hm] at h; cases h
    all_goals cases hm

/-! ### Joining the formatted lines -/

theorem mem_formatLines : ∀ {lines : List (List Char)}
    {prev : Option (List Char)} {m : List Char},
    m ∈ formatLines prev lines →
    ∃ p l, l ∈ lines ∧ m = formatLine p l := by
  intro lines
  induction lines with
  | nil => intro prev m hm; cases hm
  | cons l ls ih =>
    intro prev m hm
    rcases List.mem_cons.mp hm with rfl | hm2
    · exact ⟨prev, l, List.mem_cons_self _ _, rfl⟩
    · rcases ih hm2 with ⟨p, l', hl', hm'⟩
      exact ⟨p, l', List.mem_cons_of_mem _ hl', hm'⟩

theorem mem_joinLines : ∀ (ms : List (List Char)) (c : Char),
    c ∈ joinLines ms → c = '\n' ∨ ∃ m ∈ ms, c ∈ m
  | [], c, hc => absurd hc (List.not_mem_nil c)
  | [l], c, hc => Or.inr ⟨l, List.mem_singleton.mpr rfl, hc⟩
  | l :: l2 :: ls, c, hc => by
    have he : joinLines (l :: l2 :: ls) =
        l ++ '\n' :: joinLines (l2 :: ls) := rfl
    rw [he] at hc
    rcases List.mem_append.mp hc with h1 | h2
    · exact Or.inr ⟨l, List.mem_cons_self _ _, h1⟩
    · rcases List.mem_cons.mp h2 with rfl | h3
      · exact Or.inl rfl
      · rcases mem_joinLines (l2 :: ls) c h3 with h4 | ⟨m, hm, hcm⟩
        · exact Or.inl h4
        · exact Or.inr ⟨m, List.mem_cons_of_mem _ hm, hcm⟩

theorem hasGt_joinLines (ms : List (List Char))
    (h : ∀ m ∈ ms, hasGt m = false) : hasGt (joinLines ms) = false := by
  cases hx : hasGt (joinLines ms) with
  | false => rfl
  | true =>
    exfalso
    rcases mem_joinLines ms '>' (hasGt_iff.mp hx) with hnl | ⟨m, hm, hcm⟩
    · cases hnl
    · have hmf := h m hm
      rw [hasGt_iff.mpr hcm] at hmf
      cases hmf

theorem not_bang_false {b : Bool} (h : (!b) = true) : b = false := by
  cases b
  · rfl
  · cases h

theorem good_join_formatLines : ∀ (lines : List (List Char))
    (prev : Option (List Char)), goodLines lines = true →
    good (joinLines (formatLines prev lines)) = true := by
  intro lines
  induction lines with
  | nil => intro prev _; rfl
  | cons l ls ih =>
    intro prev hgl
    rw [goodLines, Bool.and_eq_true] at hgl
    cases ls with
    | nil =>
      show good (formatLine prev l) = true
      exact good_formatLine prev l (good_jsTrim hgl.1)
    | cons l2 ls' =>
      show good (formatLine prev l ++
        '\n' :: joinLines (formatLines (some l) (l2 :: ls'))) = true
      have hjoin_ngt : dang l = true →
          hasGt (joinLines (formatLines (some l) (l2 :: ls'))) = false := by
        intro hd
        have hn := hgl.2
        rw [if_pos hd, allNgt, List.all_eq_true] at hn
        refine hasGt_joinLines _ ?_
        intro m hm
        rcases mem_formatLines hm with ⟨p, l', hl', rfl⟩
        exact hasGt_formatLine p l' (hasGt_jsTrim (not_bang_false (hn l' hl')))
      refine good_append (good_formatLine prev l (good_jsTrim hgl.1)) ?_ ?_
      · rw [good_cons_ne (by decide)]
        by_cases hd : dang l = true
        · exact good_of_hasGt_false (hjoin_ngt hd)
        · have hg2 := hgl.2
          rw [if_neg hd] at hg2
          exact ih (some l) hg2
      · intro hdf
        have hdl : dang l = true := dang_jsTrim (dang_formatLine prev l hdf)
        show (('\n' == '>') ||
          hasGt (joinLines (formatLines (some l) (l2 :: ls')))) = false
        rw [hjoin_ngt hdl]
        rfl

/-! ### The C9 claim theorems -/

theorem vtabToNl_ne_vtab (c : Char) : vtabToNl c ≠ vtab := by
  rw [vtabToNl]
  by_cases hv : c = vtab
  · rw [if_pos hv]; decide
  · rw [if_neg hv]; exact hv

/-- Claim C9, amended: for every input, the `cleanMarkdown` output
contains no vertical-tab character (U+000B), contains no substring
matching the HTML-tag pattern `<[^>]+>`, and the empty string maps to the
empty string.  The original claim also asserted the output never contains
`‹#›`; that conjunct is false — the single-pass removal can juxtapose
remnants that form a fresh occurrence (see the counterexample) — and is
therefore dropped. -/
theorem C9_cleanMarkdown_amended (raw : String) :
    vtab ∉ (cleanMarkdown raw).toList ∧
    hasTag (cleanMarkdown raw).toList = false ∧
    (raw = "" → cleanMarkdown raw = "") := by
  by_cases hraw : raw.isEmpty = true
  · rw [cleanMarkdown, if_pos hraw]
    exact ⟨List.not_mem_nil _, rfl, fun _ => rfl⟩
  · rw [cleanMarkdown, if_neg hraw]
    have hout : (String.mk (joinLines (formatLines none (splitLines
        (removeArtifact ((stripTags raw.toList).map vtabToNl)))))).toList =
        joinLines (formatLines none (splitLines
        (removeArtifact ((stripTags raw.toList).map vtabToNl)))) := rfl
    rw [hout]
    refine ⟨?_, ?_, ?_⟩
    · intro hv
      rcases mem_joinLines _ _ hv with heq | ⟨m, hm, hcm⟩
      · exact absurd heq (by decide)
      · rcases mem_formatLines hm with ⟨p, l', hl', rfl⟩
        rcases mem_formatLine hcm with hIn | hx | hx | hx | hx
        · have h1 : vtab ∈ l' := mem_jsTrim hIn
          have h2 := mem_splitLines _ _ hl' _ h1
          have h3 := mem_removeArtifact _ _ h2
          rcases List.mem_map.mp h3 with ⟨a, -, ha⟩
          exact vtabToNl_ne_vtab a ha
        all_goals exact absurd hx (by decide)
    · refine hasTag_false_of_good ?_
      refine good_join_formatLines _ none ?_
      refine goodLines_splitLines _ ?_
      refine good_removeArtifact _ ?_
      refine good_map_vtabToNl ?_
      exact good_stripGo raw.toList none (fun _ h => by cases h)
    · intro h
      rw [h] at hraw
      exact absurd rfl hraw

/-- Witness for the amended C9: the empty document maps to itself. -/
theorem C9_cleanMarkdown_amended_witness : cleanMarkdown "" = "" :=
  (C9_cleanMarkdown_amended "").2.2 rfl

/-- Counterexample for C9 as stated: on input `"‹‹#›#›"` the single
left-to-right pass of the `‹#›` removal deletes the middle occurrence and
the remnants join into a new `‹#›`, so the output `"* ‹#›"` does contain
the supposedly removed substring. -/
theorem C9_cleanMarkdown_counterexample :
    containsSeq ['‹', '#', '›'] (cleanMarkdown "‹‹#›#›").toList = true ∧
    cleanMarkdown "‹‹#›#›" = "* ‹#›" := by
  constructor
  · decide
  · decide

end Fmt
